import Mathlib
/-!
Shallow embedding of the `vptree` Go package (vantage-point trees with
k-nearest-neighbour search) and verification of its specification.

Modelling conventions:
* Go `float64` distances are modelled as rationals `ℚ`.
* Go's `math.MaxFloat64` (the initial search radius) is modelled as the
  top element of `Option ℚ`, written `none`: every actual distance is
  strictly below the maximum representable value, so comparisons against
  the initial radius always succeed, which is exactly the behaviour of
  `none` in the helper functions below.
* `rand.Intn` is modelled by an oracle `rng : List ℕ → ℕ` indexed by the
  position (path of the current recursive call) in the build recursion;
  the drawn value is reduced `% len` to land in range, as `Intn` does.
* Go `int` arguments that can be negative (the `k` of `Search`) are
  modelled as `ℤ`; once the `k < 1` guard has passed, `k` is a positive
  count and is threaded as a `ℕ`.
-/
namespace VPT
universe u
variable {α : Type u}

/-- Tree of vantage points, translated from the `node` struct of the source
(`Item`, `Threshold`, `Left`, `Right`); `nil` models a nil `*node` pointer. -/
inductive Tree (α : Type u) : Type u
  | nil : Tree α
  | node (item : α) (threshold : ℚ) (left : Tree α) (right : Tree α) : Tree α

/-- Test for the nil pointer, used for the leaf check in `search`. -/
def Tree.isNil : Tree α → Bool
  | Tree.nil => true
  | _ => false

/-- Number of nodes of a tree. -/
def Tree.size : Tree α → ℕ
  | Tree.nil => 0
  | Tree.node _ _ l r => 1 + l.size + r.size

/-- Items stored in a tree, root first. -/
def Tree.items : Tree α → List α
  | Tree.nil => []
  | Tree.node it _ l r => it :: (l.items ++ r.items)

/-- Metric type of the source: a caller-supplied distance function. -/
def Metric (α : Type u) : Type u := α → α → ℚ

/-- Ordering used by the bounded top-k structure: larger distance first. -/
def distGE (p q : α × ℚ) : Prop := q.2 ≤ p.2

instance : DecidableRel (@distGE α) := fun p q =>
  inferInstanceAs (Decidable (q.2 ≤ p.2))

instance : IsTotal (α × ℚ) distGE := ⟨fun p q => le_total q.2 p.2⟩

instance : IsTrans (α × ℚ) distGE := ⟨fun _ _ _ h h' => le_trans h' h⟩

/-- Modelled from the spec: the repository's `priorityQueue` type (the
Bounded Top-K Structure of §4.4, a `container/heap` max-heap on `Dist`) is
not among the source files; only its callers are.  It is modelled as a list
of `(Item, Dist)` pairs kept sorted with the largest distance first, so
that the maximum is at the head, as §4.4 requires ("its maximum element is
always accessible").  `heapPush` inserts preserving that order. -/
def heapPush (h : List (α × ℚ)) (p : α × ℚ) : List (α × ℚ) :=
  h.orderedInsert distGE p

/-- Modelled from the spec: `heap.Pop` removes the maximum element, which
sits at the head of the sorted list. -/
def heapPop (h : List (α × ℚ)) : List (α × ℚ) :=
  h.tail

/-- Modelled from the spec: `h.Top()` returns the maximum element; its
distance component is what `search` assigns to `tau`.  Returns `none` on an
empty structure (the source only calls it on a non-empty one). -/
def topDist : List (α × ℚ) → Option ℚ
  | [] => none
  | p :: _ => some p.2

/-- Comparison `dist < *tau` of the source; `none` models `math.MaxFloat64`. -/
def ltTau (dist : ℚ) : Option ℚ → Bool
  | none => true
  | some t => decide (dist < t)

/-- Comparison `dist - *tau <= n.Threshold` of the source; with
`tau = MaxFloat64` (modelled `none`) the left-hand side is below any
representable threshold, so the comparison holds. -/
def subTauLE (dist : ℚ) (tau : Option ℚ) (threshold : ℚ) : Bool :=
  match tau with
  | none => true
  | some t => decide (dist - t ≤ threshold)

/-- Comparison `dist + *tau >= n.Threshold` of the source; with
`tau = MaxFloat64` (modelled `none`) the left-hand side is above any
representable threshold, so the comparison holds. -/
def addTauGE (dist : ℚ) (tau : Option ℚ) (threshold : ℚ) : Bool :=
  match tau with
  | none => true
  | some t => decide (dist + t ≥ threshold)

/-- Spec-side statement (§4.3 step 6 of the spec, for the refinement
comparison of the traversal conditions): visit `left` iff
`dist - tau ≤ threshold`, inclusively; at the maximum radius the condition
holds. -/
def visitsLeftSpec (dist : ℚ) (tau : Option ℚ) (threshold : ℚ) : Prop :=
  match tau with
  | none => True
  | some t => dist - t ≤ threshold

/-- Spec-side statement (§4.3 step 6 of the spec, for the refinement
comparison of the traversal conditions): visit `right` iff
`dist + tau ≥ threshold`, inclusively; at the maximum radius the condition
holds. -/
def visitsRightSpec (dist : ℚ) (tau : Option ℚ) (threshold : ℚ) : Prop :=
  match tau with
  | none => True
  | some t => dist + t ≥ threshold

instance : ∀ (dist : ℚ) (tau : Option ℚ) (threshold : ℚ),
    Decidable (visitsLeftSpec dist tau threshold)
  | _, none, _ => Decidable.isTrue trivial
  | dist, some t, thr => inferInstanceAs (Decidable (dist - t ≤ thr))

instance : ∀ (dist : ℚ) (tau : Option ℚ) (threshold : ℚ),
    Decidable (visitsRightSpec dist tau threshold)
  | _, none, _ => Decidable.isTrue trivial
  | dist, some t, thr => inferInstanceAs (Decidable (dist + t ≥ thr))

/-- Mutable state of one search invocation: the radius `*tau` and the
priority queue `*h`. -/
def SearchState (α : Type u) : Type u := Option ℚ × List (α × ℚ)

/-- Lines 122-130 of the source, the body of the `dist < *tau` block of
`search`: evict the maximum when the queue is at capacity, push the new
candidate, and tighten `tau` to the new maximum when at capacity. -/
def stepInsert (k : ℕ) (item : α) (dist : ℚ) : SearchState α → SearchState α :=
  fun s =>
    if ltTau dist s.1 then
      let h1 := if s.2.length = k then heapPop s.2 else s.2
      let h2 := heapPush h1 (item, dist)
      let tau1 := if h2.length = k then topDist h2 else s.1
      (tau1, h2)
    else s

/-- Translation of `func (vp *VPTree) search` (lines 115-153 of the source):
a depth-first traversal threading the state `(*tau, *h)`. -/
def search (d : Metric α) (target : α) (k : ℕ) : Tree α → SearchState α → SearchState α
  | Tree.nil, s => s
  | Tree.node item threshold left right, s =>
    let dist := d item target
    let s1 := stepInsert k item dist s
    if left.isNil && right.isNil then s1
    else if dist < threshold then
      let s2 := if subTauLE dist s1.1 threshold then search d target k left s1 else s1
      if addTauGE dist s2.1 threshold then search d target k right s2 else s2
    else
      let s2 := if addTauGE dist s1.1 threshold then search d target k right s1 else s1
      if subTauLE dist s2.1 threshold then search d target k left s2 else s2

/-- Swap `items[i], items[j] = items[j], items[i]` of two slice positions;
out-of-range indices leave the list unchanged (the source only swaps
in-range positions). -/
def swapAt (l : List α) (i j : ℕ) : List α :=
  match l[i]?, l[j]? with
  | some a, some b => (l.set i b).set j a
  | _, _ => l

/-- Swap-removal `items[idx], items = items[len(items)-1], items[:len(items)-1]`
of line 88: position `idx` receives the last element and the last slot is
dropped. -/
def swapRemove (l : List α) (i : ℕ) : List α :=
  (swapAt l i (l.length - 1)).dropLast

/-- Lines 98-104 of the source: the Lomuto partition pass, iterating `i`
over `[0, len-1)` and growing the low group `[0, storeIndex)` by swaps.
The `getD` default is never used: the source reads `items[i]` only in
range. -/
def partitionLoop (d : Metric α) (vantage : α) (pivotDist : ℚ)
    (l : List α) (i storeIndex : ℕ) : List α × ℕ :=
  if h : i < l.length - 1 then
    if d (l.getD i vantage) vantage ≤ pivotDist then
      partitionLoop d vantage pivotDist (swapAt l storeIndex i) (i + 1) (storeIndex + 1)
    else
      partitionLoop d vantage pivotDist l (i + 1) storeIndex
  else (l, storeIndex)
termination_by l.length - i
decreasing_by
  · have hswap : (swapAt l storeIndex i).length = l.length := by
      unfold swapAt
      rcases h1 : l[storeIndex]? with _ | a <;> rcases h2 : l[i]? with _ | b <;> simp
    simp only [hswap]
    omega
  · omega

/-- Lines 94-106 of the source: choose the median element as pivot, move it
to the end, run the partition pass, and swap the pivot back to the final
boundary slot.  Returns the partitioned list, the boundary `storeIndex`
(the new `median`), and `pivotDist` (which line 108 stores as the node's
threshold). -/
def partitionStep (d : Metric α) (vantage : α) (l : List α) : List α × ℕ × ℚ :=
  let median := l.length / 2
  let pivotDist := d (l.getD median vantage) vantage
  let l1 := swapAt l median (l.length - 1)
  let res := partitionLoop d vantage pivotDist l1 0 0
  (swapAt res.1 (l.length - 1) res.2, res.2, pivotDist)

/-- Translation of `func (vp *VPTree) buildFromPoints` (lines 78-113):
take a random item out of the slice, and when elements remain partition
them around the median distance, recursing on the two halves.  An empty
remainder leaves the zero-value threshold `0` and nil children, as the Go
struct literal `&node{}` does.  `rng path % len` models `rand.Intn(len)`,
with `path` recording the position of the call in the recursion tree so
that distinct calls may draw independent values. -/
def buildFromPoints (d : Metric α) (rng : List ℕ → ℕ) : List α → List ℕ → Tree α
  | [], _ => Tree.nil
  | x :: xs, path =>
    let idx := rng path % (x :: xs).length
    let item := (x :: xs).getD idx x
    let rest := swapRemove (x :: xs) idx
    if rest.isEmpty then Tree.node item 0 Tree.nil Tree.nil
    else
      let p := partitionStep d item rest
      Tree.node item p.2.2
        (buildFromPoints d rng (p.1.take p.2.1) (0 :: path))
        (buildFromPoints d rng (p.1.drop p.2.1) (1 :: path))
termination_by items _ => items.length
decreasing_by
  all_goals
    have hswap : ∀ (l : List α) (i j : ℕ), (swapAt l i j).length = l.length := by
      intro l i j
      unfold swapAt
      rcases h1 : l[i]? with _ | a <;> rcases h2 : l[j]? with _ | b <;> simp
    have hloop : ∀ (v : α) (pd : ℚ) (l : List α) (i si : ℕ),
        (partitionLoop d v pd l i si).1.length = l.length := by
      intro v pd l i si
      induction l, i, si using partitionLoop.induct d v pd with
      | case1 l i si h hc ih => rw [partitionLoop, dif_pos h, if_pos hc, ih, hswap]
      | case2 l i si h hc ih => rw [partitionLoop, dif_pos h, if_neg hc]; exact ih
      | case3 l i si h => rw [partitionLoop, dif_neg h]
    have hps : ∀ (v : α) (l : List α), (partitionStep d v l).1.length = l.length := by
      intro v l
      simp only [partitionStep]
      rw [hswap, hloop, hswap]
    have hsr : ∀ (l : List α) (i : ℕ), (swapRemove l i).length = l.length - 1 := by
      intro l i
      simp only [swapRemove]
      rw [List.length_dropLast, hswap]
    simp only [List.length_take, List.length_drop, hps, hsr, List.length_cons]
    omega

/-- Partition invariant of §3 of the spec, stated recursively over a tree:
at every node, every item reachable from `left` is within `threshold` of the
node's item, and every item reachable from `right` is at least `threshold`
away, distances taken in the argument order `d x item` used during
partitioning. -/
inductive Wf (d : Metric α) : Tree α → Prop
  | nil : Wf d Tree.nil
  | node {item : α} {thr : ℚ} {l r : Tree α} :
      (∀ x ∈ l.items, d x item ≤ thr) →
      (∀ x ∈ r.items, thr ≤ d x item) →
      Wf d l → Wf d r → Wf d (Tree.node item thr l r)

/-- Translation of the `VPTree` struct (lines 33-36): a root node and the
metric; the search radius and the priority queue are not fields. -/
structure VPTree (α : Type u) where
  root : Tree α
  distanceMetric : Metric α

/-- Translation of `New` (lines 41-47). -/
def New (metric : Metric α) (items : List α) (rng : List ℕ → ℕ) : VPTree α :=
  { root := buildFromPoints metric rng items [], distanceMetric := metric }

/-- Translation of `Search` (lines 52-76): guard `k < 1`, run the recursive
search from radius `MaxFloat64` (modelled `none`) with a fresh empty queue,
then drain the queue largest-first and reverse into ascending order.  With
the queue modelled as a largest-first sorted list, the drain-and-reverse
loop is the reversal of the two projections of the final queue. -/
def Search (vp : VPTree α) (target : α) (k : ℤ) : List α × List ℚ :=
  if k < 1 then ([], [])
  else
    let s := search vp.distanceMetric target k.toNat vp.root (none, [])
    ((s.2.map Prod.fst).reverse, (s.2.map Prod.snd).reverse)

/-- Comparison `q ≤ tau` of a distance against a radius value, `none` being
the maximum radius. -/
def leTau (q : ℚ) : Option ℚ → Prop
  | none => True
  | some t => q ≤ t

/-- Order on radius values, `none` (the maximum radius) on top. -/
def tauLE : Option ℚ → Option ℚ → Prop
  | _, none => True
  | none, some _ => False
  | some a, some b => a ≤ b

/-- State invariant of one search invocation with capacity `k`: the queue is
sorted largest-first, never exceeds `k` elements, `tau` is still at its
maximum exactly while the queue is below capacity, equals the queue's
maximum at capacity, and bounds every stored distance. -/
structure Inv (k : ℕ) (tau : Option ℚ) (h : List (α × ℚ)) : Prop where
  sorted : h.Sorted distGE
  len_le : h.length ≤ k
  tau_none : tau = none ↔ h.length < k
  tau_top : h.length = k → tau = topDist h
  bound : ∀ p ∈ h, leTau p.2 tau

/-- Selection property: `H` is a possible result of keeping the `k` elements
of smallest distance out of `S` (any tie-break allowed). -/
def IsTopK [DecidableEq α] (k : ℕ) (S H : Multiset (α × ℚ)) : Prop :=
  H ≤ S ∧ Multiset.card H = min k (Multiset.card S) ∧
    ∀ p ∈ H, ∀ q ∈ S - H, p.2 ≤ q.2

/-- Multiset of `(item, distance-to-target)` pairs of all items of a tree,
with the argument order `d item target` used by `search`. -/
def treePairs (d : Metric α) (target : α) (t : Tree α) : Multiset (α × ℚ) :=
  ((t.items.map (fun x => (x, d x target)) : List (α × ℚ)) : Multiset (α × ℚ))

/-- Re-translation of `search` for the frame claim: the Go `search` is a
method on the pointer receiver `vp`, so in principle it could mutate the
tree; here the whole `VPTree` is threaded through the state exactly like
the mutable locals.  Every occurrence of `vp` in the source body is a read
(`vp.distanceMetric`, and the receiver of the recursive calls); no field of
`vp` and no field of any node is assigned. -/
def searchMut (target : α) (k : ℕ) :
    Tree α → VPTree α × SearchState α → VPTree α × SearchState α
  | Tree.nil, s => s
  | Tree.node item threshold left right, s =>
    let vp := s.1
    let dist := vp.distanceMetric item target
    let s1 := stepInsert k item dist s.2
    if left.isNil && right.isNil then (vp, s1)
    else if dist < threshold then
      let s2 := if subTauLE dist s1.1 threshold then searchMut target k left (vp, s1)
        else (vp, s1)
      if addTauGE dist s2.2.1 threshold then searchMut target k right s2 else s2
    else
      let s2 := if addTauGE dist s1.1 threshold then searchMut target k right (vp, s1)
        else (vp, s1)
      if subTauLE dist s2.2.1 threshold then searchMut target k left s2 else s2

/-- Concrete one-dimensional rational metric used by the witnesses. -/
def absDist : Metric ℚ := fun a b => |a - b|

/-- Concrete pivot oracle used by the witnesses. -/
def rngZero : List ℕ → ℕ := fun _ => 0

theorem swapAt_length (l : List α) (i j : ℕ) : (swapAt l i j).length = l.length := by
  unfold swapAt
  rcases h1 : l[i]? with _ | a <;> rcases h2 : l[j]? with _ | b <;> simp

theorem swapAt_getD (l : List α) {i j : ℕ} (hi : i < l.length) (hj : j < l.length)
    (n : ℕ) (dflt : α) :
    (swapAt l i j).getD n dflt =
      if n = j then l.getD i dflt
      else if n = i then l.getD j dflt
      else l.getD n dflt := by
  unfold swapAt
  rw [List.getElem?_eq_getElem hi, List.getElem?_eq_getElem hj]
  rw [List.getD_eq_getD_get?, List.get?_eq_getElem?]
  by_cases hnj : n = j
  · subst hnj
    rw [List.getElem?_set_eq_of_lt _ (by simpa using hj), if_pos rfl]
    simp [List.getD_eq_getElem, hi]
  · rw [List.getElem?_set_ne (fun h => hnj h.symm), if_neg hnj]
    by_cases hni : n = i
    · subst hni
      rw [List.getElem?_set_eq_of_lt _ hi, if_pos rfl]
      simp [List.getD_eq_getElem, hj]
    · rw [List.getElem?_set_ne (fun h => hni h.symm), if_neg hni, ← List.get?_eq_getElem?,
        ← List.getD_eq_getD_get?]

theorem cons_set_perm (a : α) :
    ∀ (t : List α) (m : ℕ) (hm : m < t.length),
      (t.get ⟨m, hm⟩ :: t.set m a).Perm (a :: t) := by
  intro t
  induction t with
  | nil => intro m hm; simp at hm
  | cons b s ih =>
    intro m hm
    cases m with
    | zero => exact List.Perm.swap a b s
    | succ m =>
      have hms : m < s.length := by simpa using hm
      have h1 : ((b :: s).get ⟨m + 1, hm⟩ :: (b :: s).set (m + 1) a)
          = s.get ⟨m, hms⟩ :: b :: s.set m a := by simp
      rw [h1]
      exact ((List.Perm.swap b _ _).trans ((ih m hms).cons b)).trans (List.Perm.swap a b s)

theorem set_set_perm :
    ∀ (l : List α) (i j : ℕ) (hi : i < l.length) (hj : j < l.length),
      ((l.set i (l.get ⟨j, hj⟩)).set j (l.get ⟨i, hi⟩)).Perm l := by
  intro l
  induction l with
  | nil => intro i j hi hj; simp at hi
  | cons a t ih =>
    intro i j hi hj
    cases i with
    | zero =>
      cases j with
      | zero => simp
      | succ m =>
        have hm : m < t.length := by simpa using hj
        have : ((a :: t).set 0 ((a :: t).get ⟨m + 1, hj⟩)).set (m + 1)
            ((a :: t).get ⟨0, hi⟩) = t.get ⟨m, hm⟩ :: t.set m a := by simp
        rw [this]
        exact cons_set_perm a t m hm
    | succ m =>
      cases j with
      | zero =>
        have hm : m < t.length := by simpa using hi
        have : ((a :: t).set (m + 1) ((a :: t).get ⟨0, hj⟩)).set 0
            ((a :: t).get ⟨m + 1, hi⟩) = t.get ⟨m, hm⟩ :: t.set m a := by simp
        rw [this]
        exact cons_set_perm a t m hm
      | succ n =>
        have hm : m < t.length := by simpa using hi
        have hn : n < t.length := by simpa using hj
        have : ((a :: t).set (m + 1) ((a :: t).get ⟨n + 1, hj⟩)).set (n + 1)
            ((a :: t).get ⟨m + 1, hi⟩) =
            a :: ((t.set m (t.get ⟨n, hn⟩)).set n (t.get ⟨m, hm⟩)) := by simp
        rw [this]
        exact (ih m n hm hn).cons a

theorem swapAt_perm (l : List α) {i j : ℕ} (hi : i < l.length) (hj : j < l.length) :
    (swapAt l i j).Perm l := by
  unfold swapAt
  rw [List.getElem?_eq_getElem hi, List.getElem?_eq_getElem hj]
  exact set_set_perm l i j hi hj

theorem swapRemove_length (l : List α) (i : ℕ) :
    (swapRemove l i).length = l.length - 1 := by
  simp [swapRemove, swapAt_length]

theorem swapRemove_coe (l : List α) {i : ℕ} (hi : i < l.length) :
    (l : Multiset α) = l.get ⟨i, hi⟩ ::ₘ ((swapRemove l i : List α) : Multiset α) := by
  have hlast : l.length - 1 < l.length := by omega
  have hperm : (swapAt l i (l.length - 1)).Perm l := swapAt_perm l hi hlast
  have hlen2 : (swapAt l i (l.length - 1)).length = l.length := swapAt_length l i _
  have hne : swapAt l i (l.length - 1) ≠ [] := by
    intro h
    rw [h] at hlen2
    simp at hlen2
    omega
  have hgd : (swapAt l i (l.length - 1)).getD (l.length - 1) (l.get ⟨i, hi⟩) =
      l.getD i (l.get ⟨i, hi⟩) := by
    rw [swapAt_getD l hi hlast, if_pos rfl]
  rw [List.getD_eq_getElem _ _ (by omega), List.getD_eq_getElem _ _ hi] at hgd
  have hgl : (swapAt l i (l.length - 1)).getLast hne = l.get ⟨i, hi⟩ := by
    rw [List.getLast_eq_getElem, List.get_eq_getElem]
    convert hgd using 2
    rw [hlen2]
  have hsplit : (swapAt l i (l.length - 1)).dropLast ++ [l.get ⟨i, hi⟩] =
      swapAt l i (l.length - 1) := by
    rw [← hgl]
    exact List.dropLast_append_getLast hne
  calc (l : Multiset α) = (swapAt l i (l.length - 1) : Multiset α) :=
        (Multiset.coe_eq_coe.mpr hperm).symm
    _ = ((swapAt l i (l.length - 1)).dropLast ++ [l.get ⟨i, hi⟩] : List α) := by
        rw [hsplit]
    _ = l.get ⟨i, hi⟩ ::ₘ ((swapRemove l i : List α) : Multiset α) := by
        rw [swapRemove, Multiset.cons_coe]
        exact Multiset.coe_eq_coe.mpr (List.perm_append_singleton _ _)

theorem partitionLoop_length (d : Metric α) (vantage : α) (pivotDist : ℚ)
    (l : List α) (i storeIndex : ℕ) :
    (partitionLoop d vantage pivotDist l i storeIndex).1.length = l.length := by
  induction l, i, storeIndex using partitionLoop.induct d vantage pivotDist with
  | case1 l i si h hc ih => rw [partitionLoop, dif_pos h, if_pos hc, ih, swapAt_length]
  | case2 l i si h hc ih => rw [partitionLoop, dif_pos h, if_neg hc]; exact ih
  | case3 l i si h => rw [partitionLoop, dif_neg h]

theorem partitionLoop_spec (d : Metric α) (v : α) (pd : ℚ) (l : List α) (i si : ℕ) :
    si ≤ i → i ≤ l.length - 1 →
    (∀ n, n < si → d (l.getD n v) v ≤ pd) →
    (∀ n, si ≤ n → n < i → ¬ d (l.getD n v) v ≤ pd) →
    (partitionLoop d v pd l i si).1.Perm l ∧
      si ≤ (partitionLoop d v pd l i si).2 ∧
      (partitionLoop d v pd l i si).2 ≤ l.length - 1 ∧
      (∀ n, n < (partitionLoop d v pd l i si).2 →
        d ((partitionLoop d v pd l i si).1.getD n v) v ≤ pd) ∧
      (∀ n, (partitionLoop d v pd l i si).2 ≤ n → n < l.length - 1 →
        ¬ d ((partitionLoop d v pd l i si).1.getD n v) v ≤ pd) ∧
      (partitionLoop d v pd l i si).1.getD (l.length - 1) v = l.getD (l.length - 1) v := by
  induction l, i, si using partitionLoop.induct d v pd with
  | case1 l i si h hc ih =>
    intro hsi hil hlow hhigh
    have hsil : si < l.length := by omega
    have hiltl : i < l.length := by omega
    have hswlen : (swapAt l si i).length = l.length := swapAt_length l si i
    have hget : ∀ n dflt, (swapAt l si i).getD n dflt =
        if n = i then l.getD si dflt else if n = si then l.getD i dflt
        else l.getD n dflt := fun n dflt => swapAt_getD l hsil hiltl n dflt
    have ih2 := ih (by omega) (by omega)
      (by
        intro n hn
        rw [hget n v]
        by_cases hni : n = i
        · have hsieq : si = i := by omega
          rw [if_pos hni, hsieq]
          exact hc
        · rw [if_neg hni]
          by_cases hns : n = si
          · rw [if_pos hns]
            exact hc
          · rw [if_neg hns]
            exact hlow n (by omega))
      (by
        intro n h1 h2
        rw [hget n v]
        by_cases hni : n = i
        · rw [if_pos hni]
          exact hhigh si (le_refl si) (by omega)
        · rw [if_neg hni, if_neg (by omega)]
          exact hhigh n (by omega) (by omega))
    rw [hswlen] at ih2
    obtain ⟨hp, hs1, hs2, hl4, hl5, hl6⟩ := ih2
    rw [partitionLoop, dif_pos h, if_pos hc]
    refine ⟨hp.trans (swapAt_perm l hsil hiltl), by omega, hs2, hl4, hl5, ?_⟩
    rw [hl6, hget (l.length - 1) v, if_neg (by omega), if_neg (by omega)]
  | case2 l i si h hc ih =>
    intro hsi hil hlow hhigh
    have ih2 := ih (by omega) (by omega) hlow
      (by
        intro n h1 h2
        by_cases hni : n = i
        · rw [hni]
          exact hc
        · exact hhigh n h1 (by omega))
    rw [partitionLoop, dif_pos h, if_neg hc]
    exact ih2
  | case3 l i si h =>
    intro hsi hil hlow hhigh
    rw [partitionLoop, dif_neg h]
    exact ⟨List.Perm.refl l, le_refl si, by omega, hlow,
      fun n h1 h2 => hhigh n h1 (by omega), rfl⟩

theorem partitionStep_length (d : Metric α) (vantage : α) (l : List α) :
    (partitionStep d vantage l).1.length = l.length := by
  simp [partitionStep, swapAt_length, partitionLoop_length]

theorem mem_take_getD {l : List α} {m : ℕ} {x : α} (dflt : α) (hx : x ∈ l.take m) :
    ∃ n, n < m ∧ n < l.length ∧ l.getD n dflt = x := by
  obtain ⟨n, hn, hget⟩ := List.mem_iff_getElem.mp hx
  have hlen : n < m ∧ n < l.length := by
    rw [List.length_take] at hn
    omega
  refine ⟨n, hlen.1, hlen.2, ?_⟩
  rw [List.getD_eq_getElem _ _ hlen.2, ← hget, List.getElem_take]

theorem mem_drop_getD {l : List α} {m : ℕ} {x : α} (dflt : α) (hx : x ∈ l.drop m) :
    ∃ n, m ≤ n ∧ n < l.length ∧ l.getD n dflt = x := by
  obtain ⟨n, hn, hget⟩ := List.mem_iff_getElem.mp hx
  have hlen : m + n < l.length := by
    rw [List.length_drop] at hn
    omega
  refine ⟨m + n, by omega, hlen, ?_⟩
  rw [List.getD_eq_getElem _ _ hlen, ← hget, List.getElem_drop]

theorem partitionStep_spec (d : Metric α) (v : α) (l : List α) (hne : l ≠ []) :
    ((partitionStep d v l).1 : Multiset α) = (l : Multiset α) ∧
      (partitionStep d v l).2.1 < l.length ∧
      (∀ x ∈ (partitionStep d v l).1.take (partitionStep d v l).2.1,
        d x v ≤ (partitionStep d v l).2.2) ∧
      (∀ x ∈ (partitionStep d v l).1.drop (partitionStep d v l).2.1,
        (partitionStep d v l).2.2 ≤ d x v) ∧
      d ((partitionStep d v l).1.getD (partitionStep d v l).2.1 v) v =
        (partitionStep d v l).2.2 := by
  have hlen1 : 0 < l.length := List.length_pos.mpr hne
  have hmedlt : l.length / 2 < l.length := Nat.div_lt_self hlen1 one_lt_two
  have hlastlt : l.length - 1 < l.length := by omega
  set median := l.length / 2 with hmed
  set pd := d (l.getD median v) v with hpd
  set l1 := swapAt l median (l.length - 1) with hl1
  have h1len : l1.length = l.length := swapAt_length l median (l.length - 1)
  have h1perm : l1.Perm l := swapAt_perm l hmedlt hlastlt
  have hlast1 : l1.getD (l.length - 1) v = l.getD median v := by
    rw [hl1, swapAt_getD l hmedlt hlastlt, if_pos rfl]
  obtain ⟨hperm, hsi1, hsi2, hlow, hhigh, hlast⟩ :=
    partitionLoop_spec d v pd l1 0 0 (le_refl 0) (Nat.zero_le _)
      (fun n hn => absurd hn (by omega)) (fun n h1 h2 => absurd h2 (by omega))
  set res := partitionLoop d v pd l1 0 0 with hres
  rw [h1len] at hsi2 hhigh hlast
  have hreslen : res.1.length = l.length := by rw [hperm.length_eq, h1len]
  have hsilt : res.2 < res.1.length := by omega
  have hlastlt2 : l.length - 1 < res.1.length := by omega
  have hget2 : ∀ n dflt, (swapAt res.1 (l.length - 1) res.2).getD n dflt =
      if n = res.2 then res.1.getD (l.length - 1) dflt
      else if n = l.length - 1 then res.1.getD res.2 dflt
      else res.1.getD n dflt := fun n dflt => swapAt_getD res.1 hlastlt2 hsilt n dflt
  have hps : partitionStep d v l =
      (swapAt res.1 (l.length - 1) res.2, res.2, pd) := rfl
  have hboundary : (swapAt res.1 (l.length - 1) res.2).getD res.2 v = l.getD median v := by
    rw [hget2, if_pos rfl, hlast, hlast1]
  have hlen3 : (swapAt res.1 (l.length - 1) res.2).length = l.length := by
    rw [swapAt_length, hreslen]
  constructor
  · rw [hps]
    exact Multiset.coe_eq_coe.mpr
      (((swapAt_perm res.1 hlastlt2 hsilt).trans hperm).trans h1perm)
  refine ⟨by rw [hps]; dsimp only; omega, ?_, ?_, ?_⟩
  · intro x hx
    rw [hps] at hx ⊢
    dsimp only at hx ⊢
    obtain ⟨n, hn1, hn2, hn3⟩ := mem_take_getD v hx
    rw [hlen3] at hn2
    rw [← hn3, hget2, if_neg (by omega), if_neg (by omega)]
    exact hlow n (by omega)
  · intro x hx
    rw [hps] at hx ⊢
    dsimp only at hx ⊢
    obtain ⟨n, hn1, hn2, hn3⟩ := mem_drop_getD v hx
    rw [hlen3] at hn2
    rw [← hn3, hget2]
    by_cases hnsi : n = res.2
    · rw [if_pos hnsi, hlast, hlast1, ← hpd]
    · rw [if_neg hnsi]
      by_cases hnl : n = l.length - 1
      · rw [if_pos hnl]
        have : ¬ d (res.1.getD res.2 v) v ≤ pd := hhigh res.2 (le_refl _) (by omega)
        exact le_of_lt (lt_of_not_le this)
      · rw [if_neg hnl]
        have : ¬ d (res.1.getD n v) v ≤ pd := hhigh n (by omega) (by omega)
        exact le_of_lt (lt_of_not_le this)
  · rw [hps]
    dsimp only
    rw [hboundary, ← hpd]

theorem Tree.length_items (t : Tree α) : t.items.length = t.size := by
  induction t with
  | nil => rfl
  | node it thr l r ihl ihr => simp [Tree.items, Tree.size, ihl, ihr]; omega

theorem buildFromPoints_coe_aux (d : Metric α) (rng : List ℕ → ℕ) :
    ∀ (N : ℕ) (items : List α), items.length ≤ N → ∀ path : List ℕ,
      (((buildFromPoints d rng items path).items : List α) : Multiset α) =
        (items : Multiset α) := by
  intro N
  induction N with
  | zero =>
    intro items hlen path
    have hit : items = [] := by
      cases items with
      | nil => rfl
      | cons y ys => simp at hlen
    rw [hit]
    simp [buildFromPoints, Tree.items]
  | succ N ihN =>
    intro items hlen path
    cases items with
    | nil => simp [buildFromPoints, Tree.items]
    | cons x xs =>
      have hidx : rng path % (x :: xs).length < (x :: xs).length :=
        Nat.mod_lt _ (by simp)
      have hitem : (x :: xs).getD (rng path % (x :: xs).length) x =
          (x :: xs).get ⟨rng path % (x :: xs).length, hidx⟩ := by
        rw [List.getD_eq_getElem _ _ hidx]
        rfl
      have hco := swapRemove_coe (x :: xs) hidx
      have hrlen : (swapRemove (x :: xs) (rng path % (x :: xs).length)).length =
          xs.length := by
        rw [swapRemove_length]
        simp
      simp only [buildFromPoints]
      by_cases h : (swapRemove (x :: xs) (rng path % (x :: xs).length)).isEmpty = true
      · have hrest : swapRemove (x :: xs) (rng path % (x :: xs).length) = [] :=
          List.isEmpty_iff.mp h
        rw [if_pos h]
        rw [hrest] at hco
        simp only [Tree.items, List.append_nil, hitem]
        rw [hco]
        rfl
      · have hrestne : swapRemove (x :: xs) (rng path % (x :: xs).length) ≠ [] :=
          fun hh => h (by rw [hh]; rfl)
        obtain ⟨hcoe, hsi, hlow, hhigh, hb⟩ :=
          partitionStep_spec d ((x :: xs).getD (rng path % (x :: xs).length) x)
            (swapRemove (x :: xs) (rng path % (x :: xs).length)) hrestne
        have hplen : (partitionStep d ((x :: xs).getD (rng path % (x :: xs).length) x)
            (swapRemove (x :: xs) (rng path % (x :: xs).length))).1.length = xs.length := by
          rw [partitionStep_length, hrlen]
        rw [if_neg h]
        simp only [Tree.items]
        rw [← Multiset.cons_coe, ← Multiset.coe_add,
          ihN _ (le_trans (le_trans (List.length_take_le' _ _) (le_of_eq hplen)) (by
              simp at hlen; omega)) (0 :: path),
          ihN _ (le_trans (le_trans (by rw [List.length_drop, hplen]; omega) (le_of_eq hplen)) (by
              simp at hlen; omega)) (1 :: path),
          Multiset.coe_add, List.take_append_drop, hcoe, hitem, hco]

theorem buildFromPoints_coe (d : Metric α) (rng : List ℕ → ℕ) (items : List α)
    (path : List ℕ) :
    (((buildFromPoints d rng items path).items : List α) : Multiset α) =
      (items : Multiset α) :=
  buildFromPoints_coe_aux d rng items.length items (le_refl _) path

theorem buildFromPoints_wf_aux (d : Metric α) (rng : List ℕ → ℕ) :
    ∀ (N : ℕ) (items : List α), items.length ≤ N → ∀ path : List ℕ,
      Wf d (buildFromPoints d rng items path) := by
  intro N
  induction N with
  | zero =>
    intro items hlen path
    have hit : items = [] := by
      cases items with
      | nil => rfl
      | cons y ys => simp at hlen
    rw [hit]
    simp only [buildFromPoints]
    exact Wf.nil
  | succ N ihN =>
    intro items hlen path
    cases items with
    | nil =>
      simp only [buildFromPoints]
      exact Wf.nil
    | cons x xs =>
      simp only [buildFromPoints]
      by_cases h : (swapRemove (x :: xs) (rng path % (x :: xs).length)).isEmpty = true
      · rw [if_pos h]
        exact Wf.node (by simp [Tree.items]) (by simp [Tree.items]) Wf.nil Wf.nil
      · have hrestne : swapRemove (x :: xs) (rng path % (x :: xs).length) ≠ [] :=
          fun hh => h (by rw [hh]; rfl)
        obtain ⟨hcoe, hsi, hlow, hhigh, hb⟩ :=
          partitionStep_spec d ((x :: xs).getD (rng path % (x :: xs).length) x)
            (swapRemove (x :: xs) (rng path % (x :: xs).length)) hrestne
        have hrlen : (swapRemove (x :: xs) (rng path % (x :: xs).length)).length =
            xs.length := by
          rw [swapRemove_length]
          simp
        have hplen : (partitionStep d ((x :: xs).getD (rng path % (x :: xs).length) x)
            (swapRemove (x :: xs) (rng path % (x :: xs).length))).1.length = xs.length := by
          rw [partitionStep_length, hrlen]
        rw [if_neg h]
        refine Wf.node ?_ ?_
          (ihN _ (le_trans (le_trans (List.length_take_le' _ _) (le_of_eq hplen)) (by
              simp at hlen; omega)) (0 :: path))
          (ihN _ (le_trans (le_trans (by rw [List.length_drop, hplen]; omega) (le_of_eq hplen)) (by
              simp at hlen; omega)) (1 :: path))
        · intro y hy
          refine hlow y ?_
          have hc := buildFromPoints_coe d rng
            ((partitionStep d ((x :: xs).getD (rng path % (x :: xs).length) x)
              (swapRemove (x :: xs) (rng path % (x :: xs).length))).1.take
              (partitionStep d ((x :: xs).getD (rng path % (x :: xs).length) x)
                (swapRemove (x :: xs) (rng path % (x :: xs).length))).2.1) (0 :: path)
          rw [← Multiset.mem_coe, hc] at hy
          exact Multiset.mem_coe.mp hy
        · intro y hy
          refine hhigh y ?_
          have hc := buildFromPoints_coe d rng
            ((partitionStep d ((x :: xs).getD (rng path % (x :: xs).length) x)
              (swapRemove (x :: xs) (rng path % (x :: xs).length))).1.drop
              (partitionStep d ((x :: xs).getD (rng path % (x :: xs).length) x)
                (swapRemove (x :: xs) (rng path % (x :: xs).length))).2.1) (1 :: path)
          rw [← Multiset.mem_coe, hc] at hy
          exact Multiset.mem_coe.mp hy

theorem buildFromPoints_wf (d : Metric α) (rng : List ℕ → ℕ) (items : List α)
    (path : List ℕ) :
    Wf d (buildFromPoints d rng items path) :=
  buildFromPoints_wf_aux d rng items.length items (le_refl _) path

theorem buildFromPoints_length (d : Metric α) (rng : List ℕ → ℕ) (items : List α)
    (path : List ℕ) :
    (buildFromPoints d rng items path).size = items.length := by
  have h := congrArg Multiset.card (buildFromPoints_coe d rng items path)
  simpa [Tree.length_items] using h

theorem tauLE_refl (tau : Option ℚ) : tauLE tau tau := by
  cases tau with
  | none => trivial
  | some t => exact le_refl t

theorem tauLE_none (a : Option ℚ) : tauLE a none := by
  cases a <;> trivial

theorem tauLE_trans {a b c : Option ℚ} (h1 : tauLE a b) (h2 : tauLE b c) :
    tauLE a c := by
  cases c with
  | none => cases a <;> trivial
  | some c0 =>
    cases b with
    | none => exact absurd h2 (by simp [tauLE])
    | some b0 =>
      cases a with
      | none => exact absurd h1 (by simp [tauLE])
      | some a0 => exact le_trans (h1 : a0 ≤ b0) h2

theorem leTau_of_tauLE {q : ℚ} {a b : Option ℚ} (h1 : leTau q a) (h2 : tauLE a b) :
    leTau q b := by
  cases b with
  | none => trivial
  | some b0 =>
    cases a with
    | none => exact absurd h2 (by simp [tauLE])
    | some a0 => exact le_trans (h1 : q ≤ a0) h2

theorem heapPush_sorted {h : List (α × ℚ)} (hs : h.Sorted distGE) (p : α × ℚ) :
    (heapPush h p).Sorted distGE :=
  List.Sorted.orderedInsert p h hs

theorem heapPush_length (h : List (α × ℚ)) (p : α × ℚ) :
    (heapPush h p).length = h.length + 1 :=
  List.orderedInsert_length distGE h p

theorem heapPush_coe (h : List (α × ℚ)) (p : α × ℚ) :
    ((heapPush h p : List (α × ℚ)) : Multiset (α × ℚ)) = p ::ₘ ↑h :=
  Multiset.coe_eq_coe.mpr (List.perm_orderedInsert distGE p h)

theorem sorted_le_topDist {h : List (α × ℚ)} (hs : h.Sorted distGE) :
    ∀ p ∈ h, leTau p.2 (topDist h) := by
  cases h with
  | nil => intro p hp; simp at hp
  | cons q0 rest =>
    intro p hp
    rcases List.mem_cons.mp hp with hq | hq
    · rw [hq]
      exact le_refl _
    · exact List.rel_of_sorted_cons hs p hq

theorem stepInsert_spec [DecidableEq α] (k : ℕ) (hk : 1 ≤ k) (it : α) (dist : ℚ) (tau : Option ℚ)
    (h : List (α × ℚ)) (hinv : Inv k tau h) :
    Inv k (stepInsert k it dist (tau, h)).1 (stepInsert k it dist (tau, h)).2 ∧
      tauLE (stepInsert k it dist (tau, h)).1 tau ∧
      (stepInsert k it dist (tau, h)).2.length = min k (h.length + 1) ∧
      IsTopK k (↑h + {(it, dist)}) ↑(stepInsert k it dist (tau, h)).2 := by
  by_cases hlt : ltTau dist tau = true
  case neg =>
    have hstep : stepInsert k it dist (tau, h) = (tau, h) := by
      simp only [stepInsert]
      rw [if_neg hlt]
    rw [hstep]
    dsimp only
    obtain ⟨t, ht⟩ : ∃ t, tau = some t := by
      cases tau with
      | none => exact (hlt rfl).elim
      | some t => exact ⟨t, rfl⟩
    have htd : t ≤ dist := by
      rw [ht] at hlt
      simpa [ltTau] using hlt
    have hfull : h.length = k := by
      have h1 := hinv.tau_none
      have h2 := hinv.len_le
      rw [ht] at h1
      simp at h1
      omega
    refine ⟨hinv, tauLE_refl tau, by omega, ?_, ?_, ?_⟩
    · exact Multiset.le_add_right _ _
    · simp [hfull]
    · intro p hp q hq
      rw [add_tsub_cancel_left] at hq
      rw [Multiset.mem_singleton.mp hq]
      have hb := hinv.bound p (Multiset.mem_coe.mp hp)
      rw [ht] at hb
      exact le_trans hb htd
  case pos =>
    by_cases hfull : h.length = k
    case pos =>
      cases h with
      | nil => rw [← hfull] at hk; simp at hk
      | cons q0 rest =>
        have htau : tau = some q0.2 := hinv.tau_top hfull
        have hdlt : dist < q0.2 := by
          rw [htau] at hlt
          simpa [ltTau] using hlt
        have hrlen : rest.length = k - 1 := by
          simp at hfull
          omega
        have hp2len : (heapPush rest (it, dist)).length = k := by
          rw [heapPush_length]
          omega
        have hstep : stepInsert k it dist (tau, q0 :: rest) =
            (topDist (heapPush rest (it, dist)), heapPush rest (it, dist)) := by
          simp only [stepInsert]
          rw [if_pos hlt, if_pos hfull]
          simp only [heapPop, List.tail_cons]
          rw [if_pos hp2len]
        rw [hstep]
        dsimp only
        have hsorted2 : (heapPush rest (it, dist)).Sorted distGE :=
          heapPush_sorted (List.Sorted.of_cons hinv.sorted) _
        have hne2 : heapPush rest (it, dist) ≠ [] := by
          intro hh
          rw [hh] at hp2len
          simp at hp2len
          omega
        have hmem2 : ∀ p ∈ heapPush rest (it, dist), p.2 ≤ q0.2 := by
          intro p hp
          have hpc : p ∈ (((heapPush rest (it, dist) : List (α × ℚ))) : Multiset (α × ℚ)) :=
            Multiset.mem_coe.mpr hp
          rw [heapPush_coe] at hpc
          rcases Multiset.mem_cons.mp hpc with hc | hc
          · rw [hc]
            exact le_of_lt hdlt
          · exact List.rel_of_sorted_cons hinv.sorted p (Multiset.mem_coe.mp hc)
        obtain ⟨u, hu1, hu2⟩ :
            ∃ u, topDist (heapPush rest (it, dist)) = some u ∧ u ≤ q0.2 := by
          cases hh : heapPush rest (it, dist) with
          | nil => exact absurd hh hne2
          | cons u us =>
            refine ⟨u.2, by simp [topDist], ?_⟩
            refine hmem2 u ?_
            rw [hh]
            exact List.mem_cons_self u us
        have hS : ((q0 :: rest : List (α × ℚ)) : Multiset (α × ℚ)) + {(it, dist)} =
            q0 ::ₘ ((it, dist) ::ₘ ↑rest) := by
          rw [← Multiset.cons_coe, Multiset.cons_add, add_comm, Multiset.singleton_add]
        refine ⟨?_, ?_, ?_, ?_, ?_, ?_⟩
        · exact
            { sorted := hsorted2
              len_le := le_of_eq hp2len
              tau_none := by
                rw [hu1, hp2len]
                simp
              tau_top := fun _ => rfl
              bound := sorted_le_topDist hsorted2 }
        · rw [hu1, htau]
          exact (hu2 : tauLE (some u) (some q0.2))
        · simp only [List.length_cons]
          rw [hp2len, min_eq_left (by omega)]

        · rw [heapPush_coe, hS]
          exact Multiset.le_cons_self _ _
        · rw [heapPush_coe, hS]
          simp only [Multiset.card_cons, Multiset.coe_card]
          rw [min_eq_left (by omega)]
          omega
        · intro p hp q hq
          rw [heapPush_coe, hS, ← Multiset.singleton_add, add_tsub_cancel_right] at hq
          rw [Multiset.mem_singleton.mp hq]
          exact hmem2 p (Multiset.mem_coe.mp hp)
    case neg =>
      have hlen : h.length < k := lt_of_le_of_ne hinv.len_le hfull
      have htau : tau = none := hinv.tau_none.mpr hlen
      have hstep : stepInsert k it dist (tau, h) =
          ((if (heapPush h (it, dist)).length = k
              then topDist (heapPush h (it, dist)) else tau),
            heapPush h (it, dist)) := by
        simp only [stepInsert]
        rw [if_pos hlt, if_neg hfull]
      rw [hstep]
      dsimp only
      have hsorted2 : (heapPush h (it, dist)).Sorted distGE :=
        heapPush_sorted hinv.sorted _
      have hlen2 : (heapPush h (it, dist)).length = h.length + 1 := heapPush_length h _
      have htopk : IsTopK k (↑h + {(it, dist)}) ↑(heapPush h (it, dist)) := by
        have hSH : (↑h + {(it, dist)} : Multiset (α × ℚ)) =
            ↑(heapPush h (it, dist)) := by
          rw [heapPush_coe, add_comm, Multiset.singleton_add]
        refine ⟨le_of_eq hSH.symm, ?_, ?_⟩
        · rw [hSH, min_eq_right]
          simp only [Multiset.coe_card, hlen2]
          omega
        · intro p hp q hq
          rw [hSH, tsub_self] at hq
          simp at hq
      by_cases hk2 : (heapPush h (it, dist)).length = k
      case pos =>
        have hne2 : heapPush h (it, dist) ≠ [] := by
          intro hh
          rw [hh] at hk2
          simp at hk2
          omega
        obtain ⟨u, hu1⟩ : ∃ u, topDist (heapPush h (it, dist)) = some u := by
          cases hh : heapPush h (it, dist) with
          | nil => exact absurd hh hne2
          | cons u us => exact ⟨u.2, by simp [topDist]⟩
        rw [if_pos hk2]
        refine ⟨?_, ?_, ?_, htopk⟩
        · exact
            { sorted := hsorted2
              len_le := le_of_eq hk2
              tau_none := by
                rw [hu1, hk2]
                simp
              tau_top := fun _ => rfl
              bound := sorted_le_topDist hsorted2 }
        · rw [htau]
          exact tauLE_none _
        · have hx : h.length + 1 = k := by rw [← hlen2]; exact hk2
          rw [hk2, min_eq_left (le_of_eq hx.symm)]
      case neg =>
        rw [if_neg hk2]
        refine ⟨?_, ?_, ?_, htopk⟩
        · exact
            { sorted := hsorted2
              len_le := by omega
              tau_none := by
                have hk2x : h.length + 1 ≠ k := fun hh => hk2 (by rw [hlen2, hh])
                rw [htau, hlen2]
                simp
                omega
              tau_top := fun hh => absurd hh hk2
              bound := fun p hp => by rw [htau]; trivial }
        · exact tauLE_refl tau
        · rw [hlen2, min_eq_right (by omega)]

theorem treePairs_nil (d : Metric α) (target : α) :
    treePairs d target (Tree.nil : Tree α) = 0 := rfl

theorem treePairs_node (d : Metric α) (target : α) (it : α) (thr : ℚ) (l r : Tree α) :
    treePairs d target (Tree.node it thr l r) =
      (it, d it target) ::ₘ (treePairs d target l + treePairs d target r) := by
  simp [treePairs, Tree.items]

theorem isNil_iff (t : Tree α) : t.isNil = true ↔ t = Tree.nil := by
  cases t <;> simp [Tree.isNil]

theorem search_state (d : Metric α) (target : α) (k : ℕ) (hk : 1 ≤ k) :
    ∀ (t : Tree α) (s : SearchState α), Inv k s.1 s.2 →
      Inv k (search d target k t s).1 (search d target k t s).2 ∧
        tauLE (search d target k t s).1 s.1 ∧
        (search d target k t s).2.length = min k (s.2.length + t.size) ∧
        (((search d target k t s).2 : List (α × ℚ)) : Multiset (α × ℚ)) ≤
          ↑s.2 + treePairs d target t := by
  intro t
  induction t with
  | nil =>
    intro s hinv
    have hlen := hinv.len_le
    refine ⟨hinv, tauLE_refl s.1, ?_, ?_⟩
    · simp only [search, Tree.size]
      omega
    · simp [search, treePairs_nil]
  | node it thr l r ihl ihr =>
    intro s hinv
    classical
    obtain ⟨tau, h⟩ := s
    obtain ⟨hinv1, htau1, hlen1, htopk1⟩ :=
      stepInsert_spec k hk it (d it target) tau h hinv
    have hguard : ∀ (c : Tree α),
        (∀ (s2 : SearchState α), Inv k s2.1 s2.2 →
          Inv k (search d target k c s2).1 (search d target k c s2).2 ∧
            tauLE (search d target k c s2).1 s2.1 ∧
            (search d target k c s2).2.length = min k (s2.2.length + c.size) ∧
            (((search d target k c s2).2 : List (α × ℚ)) : Multiset (α × ℚ)) ≤
              ↑s2.2 + treePairs d target c) →
        ∀ (b : Bool) (s2 : SearchState α), Inv k s2.1 s2.2 →
          (b = false → s2.1 ≠ none) →
          Inv k (if b then search d target k c s2 else s2).1
              (if b then search d target k c s2 else s2).2 ∧
            tauLE (if b then search d target k c s2 else s2).1 s2.1 ∧
            (if b then search d target k c s2 else s2).2.length =
              min k (s2.2.length + c.size) ∧
            (((if b then search d target k c s2 else s2).2 :
              List (α × ℚ)) : Multiset (α × ℚ)) ≤ ↑s2.2 + treePairs d target c := by
      intro c hc b s2 hinv2 hbf
      cases b with
      | true => simpa using hc s2 hinv2
      | false =>
        have htn : s2.1 ≠ none := hbf rfl
        have hlk : s2.2.length = k := by
          have hx := hinv2.tau_none
          have hy := hinv2.len_le
          have hz : ¬ s2.2.length < k := fun hlt => htn (hx.mpr hlt)
          omega
        simp only [if_neg Bool.false_ne_true]
        refine ⟨hinv2, tauLE_refl s2.1, by omega, Multiset.le_add_right _ _⟩
    simp only [search]
    by_cases hleaf : (Tree.isNil l && Tree.isNil r) = true
    · rw [if_pos hleaf]
      obtain ⟨hl, hr⟩ : l = Tree.nil ∧ r = Tree.nil := by
        rcases Bool.and_eq_true_iff.mp hleaf with ⟨h1, h2⟩
        exact ⟨(isNil_iff l).mp h1, (isNil_iff r).mp h2⟩
      subst hl
      subst hr
      refine ⟨hinv1, htau1, ?_, ?_⟩
      · simp only [Tree.size]
        omega
      · rw [treePairs_node]
        simpa [treePairs_nil] using htopk1.1
    · rw [if_neg hleaf]
      by_cases hord : d it target < thr
      · rw [if_pos hord]
        obtain ⟨hinv2, htau2, hlen2, hcoe2⟩ :=
          hguard l ihl
            (subTauLE (d it target) (stepInsert k it (d it target) (tau, h)).1 thr)
            (stepInsert k it (d it target) (tau, h)) hinv1
            (fun hb htn => by rw [htn] at hb; simp [subTauLE] at hb)
        obtain ⟨hinv3, htau3, hlen3, hcoe3⟩ :=
          hguard r ihr
            (addTauGE (d it target)
              (if subTauLE (d it target) (stepInsert k it (d it target) (tau, h)).1 thr
                then search d target k l (stepInsert k it (d it target) (tau, h))
                else stepInsert k it (d it target) (tau, h)).1 thr)
            (if subTauLE (d it target) (stepInsert k it (d it target) (tau, h)).1 thr
              then search d target k l (stepInsert k it (d it target) (tau, h))
              else stepInsert k it (d it target) (tau, h)) hinv2
            (fun hb htn => by rw [htn] at hb; simp [addTauGE] at hb)
        refine ⟨hinv3, tauLE_trans (tauLE_trans htau3 htau2) htau1, ?_, ?_⟩
        · rw [hlen3, hlen2, hlen1]
          simp only [Tree.size]
          omega
        · calc (((if addTauGE (d it target)
                (if subTauLE (d it target) (stepInsert k it (d it target) (tau, h)).1 thr
                  then search d target k l (stepInsert k it (d it target) (tau, h))
                  else stepInsert k it (d it target) (tau, h)).1 thr
                then search d target k r
                  (if subTauLE (d it target) (stepInsert k it (d it target) (tau, h)).1 thr
                    then search d target k l (stepInsert k it (d it target) (tau, h))
                    else stepInsert k it (d it target) (tau, h))
                else (if subTauLE (d it target)
                    (stepInsert k it (d it target) (tau, h)).1 thr
                  then search d target k l (stepInsert k it (d it target) (tau, h))
                  else stepInsert k it (d it target) (tau, h))).2 :
              List (α × ℚ)) : Multiset (α × ℚ))
              ≤ _ + treePairs d target r := hcoe3
          _ ≤ ((↑(stepInsert k it (d it target) (tau, h)).2 + treePairs d target l)
                + treePairs d target r) := add_le_add_right hcoe2 _
          _ ≤ (((↑h + {(it, d it target)}) + treePairs d target l)
                + treePairs d target r) :=
              add_le_add_right (add_le_add_right htopk1.1 _) _
          _ = ↑h + treePairs d target (Tree.node it thr l r) := by
              rw [treePairs_node, ← Multiset.singleton_add]
              simp [add_assoc]
      · rw [if_neg hord]
        obtain ⟨hinv2, htau2, hlen2, hcoe2⟩ :=
          hguard r ihr
            (addTauGE (d it target) (stepInsert k it (d it target) (tau, h)).1 thr)
            (stepInsert k it (d it target) (tau, h)) hinv1
            (fun hb htn => by rw [htn] at hb; simp [addTauGE] at hb)
        obtain ⟨hinv3, htau3, hlen3, hcoe3⟩ :=
          hguard l ihl
            (subTauLE (d it target)
              (if addTauGE (d it target) (stepInsert k it (d it target) (tau, h)).1 thr
                then search d target k r (stepInsert k it (d it target) (tau, h))
                else stepInsert k it (d it target) (tau, h)).1 thr)
            (if addTauGE (d it target) (stepInsert k it (d it target) (tau, h)).1 thr
              then search d target k r (stepInsert k it (d it target) (tau, h))
              else stepInsert k it (d it target) (tau, h)) hinv2
            (fun hb htn => by rw [htn] at hb; simp [subTauLE] at hb)
        refine ⟨hinv3, tauLE_trans (tauLE_trans htau3 htau2) htau1, ?_, ?_⟩
        · rw [hlen3, hlen2, hlen1]
          simp only [Tree.size]
          omega
        · calc (((if subTauLE (d it target)
                (if addTauGE (d it target) (stepInsert k it (d it target) (tau, h)).1 thr
                  then search d target k r (stepInsert k it (d it target) (tau, h))
                  else stepInsert k it (d it target) (tau, h)).1 thr
                then search d target k l
                  (if addTauGE (d it target) (stepInsert k it (d it target) (tau, h)).1 thr
                    then search d target k r (stepInsert k it (d it target) (tau, h))
                    else stepInsert k it (d it target) (tau, h))
                else (if addTauGE (d it target)
                    (stepInsert k it (d it target) (tau, h)).1 thr
                  then search d target k r (stepInsert k it (d it target) (tau, h))
                  else stepInsert k it (d it target) (tau, h))).2 :
              List (α × ℚ)) : Multiset (α × ℚ))
              ≤ _ + treePairs d target l := hcoe3
          _ ≤ ((↑(stepInsert k it (d it target) (tau, h)).2 + treePairs d target r)
                + treePairs d target l) := add_le_add_right hcoe2 _
          _ ≤ (((↑h + {(it, d it target)}) + treePairs d target r)
                + treePairs d target l) :=
              add_le_add_right (add_le_add_right htopk1.1 _) _
          _ = ↑h + treePairs d target (Tree.node it thr l r) := by
              rw [treePairs_node, ← Multiset.singleton_add]
              simp [add_assoc, add_left_comm, add_comm]

theorem search_inv (d : Metric α) (target : α) (k : ℕ) (hk : 1 ≤ k) (t : Tree α)
    (s : SearchState α) (hinv : Inv k s.1 s.2) :
    Inv k (search d target k t s).1 (search d target k t s).2 :=
  (search_state d target k hk t s hinv).1

theorem search_tauLE (d : Metric α) (target : α) (k : ℕ) (hk : 1 ≤ k) (t : Tree α)
    (s : SearchState α) (hinv : Inv k s.1 s.2) :
    tauLE (search d target k t s).1 s.1 :=
  (search_state d target k hk t s hinv).2.1

theorem IsTopK.self [DecidableEq α] {k : ℕ} {H : Multiset (α × ℚ)}
    (hc : Multiset.card H ≤ k) : IsTopK k H H :=
  ⟨le_refl H, (min_eq_right hc).symm, by
    intro p hp q hq
    rw [tsub_self] at hq
    simp at hq⟩

theorem IsTopK.step [DecidableEq α] {k : ℕ} {S B H1 H2 : Multiset (α × ℚ)}
    (h1 : IsTopK k S H1) (h2 : IsTopK k (H1 + B) H2) : IsTopK k (S + B) H2 := by
  obtain ⟨hle1, hc1, hm1⟩ := h1
  obtain ⟨hle2, hc2, hm2⟩ := h2
  have hcardle : Multiset.card H1 ≤ Multiset.card S := Multiset.card_le_card hle1
  refine ⟨hle2.trans (add_le_add_right hle1 B), ?_, ?_⟩
  · rw [Multiset.card_add] at hc2 ⊢
    omega
  · have hdecomp : (S + B) - H2 = (S - H1) + ((H1 + B) - H2) := by
      have hc1a := Multiset.le_iff_count.mp hle1
      have hc2a := Multiset.le_iff_count.mp hle2
      ext a
      have hx1 := hc1a a
      have hx2 := hc2a a
      simp only [Multiset.count_sub, Multiset.count_add] at hx1 hx2 ⊢
      omega
    intro p hp q hq
    rw [hdecomp] at hq
    rcases Multiset.mem_add.mp hq with hq1 | hq2
    case inr => exact hm2 p hp q hq2
    case inl =>
      by_cases hfull : Multiset.card H1 = k
      · by_contra hpq
        push_neg at hpq
        have hH1H2 : H1 ≤ H2 := by
          rw [Multiset.le_iff_count]
          intro a
          by_cases ha : a ∈ H1
          case neg =>
            rw [Multiset.count_eq_zero.mpr ha]
            omega
          case pos =>
            have haq : a.2 ≤ q.2 := hm1 a ha q hq1
            have hdiff0 : Multiset.count a ((H1 + B) - H2) = 0 := by
              by_contra hc0
              have hmem : a ∈ (H1 + B) - H2 :=
                Multiset.count_pos.mp (Nat.pos_of_ne_zero hc0)
              have hpa := hm2 p hp a hmem
              linarith
            have hcount2 := Multiset.le_iff_count.mp hle2 a
            rw [Multiset.count_sub, Multiset.count_add] at hdiff0
            rw [Multiset.count_add] at hcount2
            omega
        have hcard2 : Multiset.card H2 ≤ k := by
          rw [hc2]
          exact min_le_left _ _
        have hH1eq : H1 = H2 := Multiset.eq_of_le_of_card_le hH1H2 (by omega)
        rw [← hH1eq] at hp
        have := hm1 p hp q hq1
        linarith
      · have hmin1 : Multiset.card H1 ≤ k := by
          rw [hc1]
          exact min_le_left _ _
        have hSle : Multiset.card S ≤ Multiset.card H1 := by
          rw [hc1]
          rw [hc1] at hfull
          omega
        have hH1S : H1 = S := Multiset.eq_of_le_of_card_le hle1 hSle
        rw [← hH1S, tsub_self] at hq1
        simp at hq1

theorem IsTopK.addBig [DecidableEq α] {k : ℕ} {S A H : Multiset (α × ℚ)}
    (h1 : IsTopK k S H) (hfull : Multiset.card H = k)
    (hA : ∀ q ∈ A, ∀ p ∈ H, p.2 ≤ q.2) : IsTopK k (S + A) H := by
  obtain ⟨hle, hc, hm⟩ := h1
  have hcS : k ≤ Multiset.card S := by
    rw [hc] at hfull
    omega
  refine ⟨hle.trans (Multiset.le_add_right _ _), ?_, ?_⟩
  · rw [Multiset.card_add]
    omega
  · have hdecomp : (S + A) - H = (S - H) + A := by
      have hcc := Multiset.le_iff_count.mp hle
      ext a
      have hx := hcc a
      simp only [Multiset.count_sub, Multiset.count_add]
      omega
    intro p hp q hq
    rw [hdecomp] at hq
    rcases Multiset.mem_add.mp hq with hq1 | hq2
    · exact hm p hp q hq1
    · exact hA q hq2 p hp

theorem mem_treePairs {d : Metric α} {target : α} {t : Tree α} {q : α × ℚ}
    (hq : q ∈ treePairs d target t) : ∃ x ∈ t.items, q = (x, d x target) := by
  simp only [treePairs, Multiset.mem_coe, List.mem_map] at hq
  obtain ⟨x, hx1, hx2⟩ := hq
  exact ⟨x, hx1, hx2.symm⟩

theorem search_topk [DecidableEq α] (d : Metric α) (target : α)
    (hsymm : ∀ a b : α, d a b = d b a)
    (htri : ∀ a b c : α, d a c ≤ d a b + d b c)
    (k : ℕ) (hk : 1 ≤ k) :
    ∀ (t : Tree α), Wf d t → ∀ (s : SearchState α), Inv k s.1 s.2 →
      IsTopK k (((s.2 : List (α × ℚ)) : Multiset (α × ℚ)) + treePairs d target t)
        (((search d target k t s).2 : List (α × ℚ)) : Multiset (α × ℚ)) := by
  intro t
  induction t with
  | nil =>
    intro hw s hinv
    have hcard : Multiset.card ((s.2 : List (α × ℚ)) : Multiset (α × ℚ)) ≤ k := by
      simpa using hinv.len_le
    simpa [search, treePairs_nil] using IsTopK.self hcard
  | node it thr l r ihl ihr =>
    intro hw s hinv
    cases hw with
    | node hwl hwr hwfl hwfr =>
    obtain ⟨tau, h⟩ := s
    obtain ⟨hinv1, htau1, hlen1, htopk1⟩ :=
      stepInsert_spec k hk it (d it target) tau h hinv
    have hguard : ∀ (c : Tree α),
        (∀ (s2 : SearchState α), Inv k s2.1 s2.2 →
          IsTopK k (((s2.2 : List (α × ℚ)) : Multiset (α × ℚ)) + treePairs d target c)
            (((search d target k c s2).2 : List (α × ℚ)) : Multiset (α × ℚ))) →
        ∀ (b : Bool) (s2 : SearchState α), Inv k s2.1 s2.2 →
          (b = false → ∀ q ∈ treePairs d target c, ∃ t0, s2.1 = some t0 ∧ t0 < q.2) →
          IsTopK k (((s2.2 : List (α × ℚ)) : Multiset (α × ℚ)) + treePairs d target c)
            ((((if b then search d target k c s2 else s2).2 :
              List (α × ℚ))) : Multiset (α × ℚ)) := by
      intro c hc b s2 hinv2 hbf
      cases b with
      | true => simpa using hc s2 hinv2
      | false =>
        simp only [if_neg Bool.false_ne_true]
        by_cases hA : treePairs d target c = 0
        · rw [hA, add_zero]
          exact IsTopK.self (by simpa using hinv2.len_le)
        · obtain ⟨q0, hq0⟩ := Multiset.exists_mem_of_ne_zero hA
          obtain ⟨t0, ht0, hlt0⟩ := hbf rfl q0 hq0
          have hfull : s2.2.length = k := by
            have hx := hinv2.tau_none
            have hy := hinv2.len_le
            have hz : ¬ s2.2.length < k := fun hlt => by
              rw [hx.mpr hlt] at ht0
              exact Option.noConfusion ht0
            omega
          refine IsTopK.addBig (IsTopK.self (by simpa using hinv2.len_le))
            (by simpa using hfull) ?_
          intro q hq p hp
          obtain ⟨t1, ht1, hlt1⟩ := hbf rfl q hq
          have hb := hinv2.bound p (Multiset.mem_coe.mp hp)
          rw [ht1] at hb
          exact le_of_lt (lt_of_le_of_lt (hb : p.2 ≤ t1) hlt1)
    have hnp : ∀ (s2 : SearchState α),
        subTauLE (d it target) s2.1 thr = false →
        ∀ q ∈ treePairs d target l, ∃ t0, s2.1 = some t0 ∧ t0 < q.2 := by
      intro s2 hcond q hq
      obtain ⟨x, hx, hqx⟩ := mem_treePairs hq
      cases hs2 : s2.1 with
      | none =>
        rw [hs2] at hcond
        simp [subTauLE] at hcond
      | some t0 =>
        rw [hs2] at hcond
        have hgt : ¬ (d it target - t0 ≤ thr) := by simpa [subTauLE] using hcond
        have hgt2 := not_le.mp hgt
        refine ⟨t0, rfl, ?_⟩
        rw [hqx]
        have h1 : d it target ≤ d it x + d x target := htri it x target
        have h2 : d it x = d x it := hsymm it x
        have h3 : d x it ≤ thr := hwl x hx
        dsimp only
        linarith
    have hnq : ∀ (s2 : SearchState α),
        addTauGE (d it target) s2.1 thr = false →
        ∀ q ∈ treePairs d target r, ∃ t0, s2.1 = some t0 ∧ t0 < q.2 := by
      intro s2 hcond q hq
      obtain ⟨x, hx, hqx⟩ := mem_treePairs hq
      cases hs2 : s2.1 with
      | none =>
        rw [hs2] at hcond
        simp [addTauGE] at hcond
      | some t0 =>
        rw [hs2] at hcond
        have hgt : ¬ (thr ≤ d it target + t0) := by
          simpa [addTauGE, ge_iff_le] using hcond
        have hgt2 := not_le.mp hgt
        refine ⟨t0, rfl, ?_⟩
        rw [hqx]
        have h1 : d x it ≤ d x target + d target it := htri x target it
        have h2 : d target it = d it target := hsymm target it
        have h3 : thr ≤ d x it := hwr x hx
        dsimp only
        linarith
    have heq : (h : Multiset (α × ℚ)) + {(it, d it target)} + treePairs d target l
        + treePairs d target r
        = ↑h + treePairs d target (Tree.node it thr l r) := by
      rw [treePairs_node, ← Multiset.singleton_add]
      simp [add_assoc]
    simp only [search]
    by_cases hleaf : (Tree.isNil l && Tree.isNil r) = true
    · rw [if_pos hleaf]
      obtain ⟨hl, hr⟩ : l = Tree.nil ∧ r = Tree.nil := by
        rcases Bool.and_eq_true_iff.mp hleaf with ⟨h1, h2⟩
        exact ⟨(isNil_iff l).mp h1, (isNil_iff r).mp h2⟩
      subst hl
      subst hr
      rw [treePairs_node]
      simpa [treePairs_nil] using htopk1
    · rw [if_neg hleaf]
      by_cases hord : d it target < thr
      · rw [if_pos hord]
        have hstep2 := hguard l (ihl hwfl)
          (subTauLE (d it target) (stepInsert k it (d it target) (tau, h)).1 thr)
          (stepInsert k it (d it target) (tau, h)) hinv1 (hnp _)
        have hinv2 : Inv k
            (if subTauLE (d it target) (stepInsert k it (d it target) (tau, h)).1 thr
              then search d target k l (stepInsert k it (d it target) (tau, h))
              else stepInsert k it (d it target) (tau, h)).1
            (if subTauLE (d it target) (stepInsert k it (d it target) (tau, h)).1 thr
              then search d target k l (stepInsert k it (d it target) (tau, h))
              else stepInsert k it (d it target) (tau, h)).2 := by
          by_cases hb : subTauLE (d it target)
              (stepInsert k it (d it target) (tau, h)).1 thr = true
          · rw [if_pos hb]
            exact search_inv d target k hk l _ hinv1
          · rw [if_neg hb]
            exact hinv1
        have hstep3 := hguard r (ihr hwfr)
          (addTauGE (d it target)
            (if subTauLE (d it target) (stepInsert k it (d it target) (tau, h)).1 thr
              then search d target k l (stepInsert k it (d it target) (tau, h))
              else stepInsert k it (d it target) (tau, h)).1 thr)
          (if subTauLE (d it target) (stepInsert k it (d it target) (tau, h)).1 thr
            then search d target k l (stepInsert k it (d it target) (tau, h))
            else stepInsert k it (d it target) (tau, h)) hinv2 (hnq _)
        have hfinal := IsTopK.step (IsTopK.step htopk1 hstep2) hstep3
        rw [heq] at hfinal
        exact hfinal
      · rw [if_neg hord]
        have hstep2 := hguard r (ihr hwfr)
          (addTauGE (d it target) (stepInsert k it (d it target) (tau, h)).1 thr)
          (stepInsert k it (d it target) (tau, h)) hinv1 (hnq _)
        have hinv2 : Inv k
            (if addTauGE (d it target) (stepInsert k it (d it target) (tau, h)).1 thr
              then search d target k r (stepInsert k it (d it target) (tau, h))
              else stepInsert k it (d it target) (tau, h)).1
            (if addTauGE (d it target) (stepInsert k it (d it target) (tau, h)).1 thr
              then search d target k r (stepInsert k it (d it target) (tau, h))
              else stepInsert k it (d it target) (tau, h)).2 := by
          by_cases hb : addTauGE (d it target)
              (stepInsert k it (d it target) (tau, h)).1 thr = true
          · rw [if_pos hb]
            exact search_inv d target k hk r _ hinv1
          · rw [if_neg hb]
            exact hinv1
        have hstep3 := hguard l (ihl hwfl)
          (subTauLE (d it target)
            (if addTauGE (d it target) (stepInsert k it (d it target) (tau, h)).1 thr
              then search d target k r (stepInsert k it (d it target) (tau, h))
              else stepInsert k it (d it target) (tau, h)).1 thr)
          (if addTauGE (d it target) (stepInsert k it (d it target) (tau, h)).1 thr
            then search d target k r (stepInsert k it (d it target) (tau, h))
            else stepInsert k it (d it target) (tau, h)) hinv2 (hnp _)
        have hfinal := IsTopK.step (IsTopK.step htopk1 hstep2) hstep3
        have heq2 : (h : Multiset (α × ℚ)) + {(it, d it target)} + treePairs d target r
            + treePairs d target l
            = ↑h + treePairs d target (Tree.node it thr l r) := by
          rw [treePairs_node, ← Multiset.singleton_add]
          simp [add_assoc, add_left_comm, add_comm]
        rw [heq2] at hfinal
        exact hfinal

theorem sorted_sub_eq_take :
    ∀ (l2 l1 : List ℚ), l1.Sorted (· ≤ ·) → l2.Sorted (· ≤ ·) →
      ((l1 : List ℚ) : Multiset ℚ) ≤ ↑l2 →
      (∀ a ∈ l1, ∀ b ∈ (↑l2 - ↑l1 : Multiset ℚ), a ≤ b) →
      l1 = l2.take l1.length := by
  intro l2
  induction l2 with
  | nil =>
    intro l1 hs1 hs2 hle hmin
    have hnil : l1 = [] := by
      have hc := Multiset.card_le_card hle
      simp at hc
      exact hc
    rw [hnil]
    rfl
  | cons b t2 ih =>
    intro l1 hs1 hs2 hle hmin
    cases l1 with
    | nil => rfl
    | cons a t1 =>
      classical
      have hab : a = b := by
        have hamem : a ∈ (b :: t2) := by
          have hx : a ∈ (↑(b :: t2) : Multiset ℚ) :=
            Multiset.mem_of_le hle (by simp)
          simpa using hx
        have hba : b ≤ a := by
          rcases List.mem_cons.mp hamem with hh | hh
          · exact le_of_eq hh.symm
          · exact List.rel_of_sorted_cons hs2 a hh
        have hab2 : a ≤ b := by
          by_cases hbmem : b ∈ (↑(b :: t2) - ↑(a :: t1) : Multiset ℚ)
          · exact hmin a (by simp) b hbmem
          · have hbl1 : b ∈ (a :: t1) := by
              have hcount : Multiset.count b (↑(b :: t2) - ↑(a :: t1) : Multiset ℚ) = 0 :=
                Multiset.count_eq_zero.mpr hbmem
              rw [Multiset.count_sub] at hcount
              have hpos : 0 < Multiset.count b (↑(b :: t2) : Multiset ℚ) := by
                rw [Multiset.count_pos]
                simp
              have hpos1 : 0 < Multiset.count b (↑(a :: t1) : Multiset ℚ) := by omega
              rw [Multiset.count_pos] at hpos1
              simpa using hpos1
            rcases List.mem_cons.mp hbl1 with hh | hh
            · exact le_of_eq hh.symm
            · exact List.rel_of_sorted_cons hs1 b hh
        exact le_antisymm hab2 hba
      subst hab
      have hle2 : ((t1 : List ℚ) : Multiset ℚ) ≤ ↑t2 := by
        have hx : (a ::ₘ (↑t1 : Multiset ℚ)) ≤ a ::ₘ ↑t2 := by
          simpa [Multiset.cons_coe] using hle
        exact (Multiset.cons_le_cons_iff a).mp hx
      have hdiff : (↑(a :: t2) - ↑(a :: t1) : Multiset ℚ) = (↑t2 - ↑t1 : Multiset ℚ) := by
        ext x
        rw [Multiset.count_sub, Multiset.count_sub, ← Multiset.cons_coe, ← Multiset.cons_coe,
          Multiset.count_cons, Multiset.count_cons]
        by_cases hx : x = a <;> simp [hx]
      have hrec := ih t1 hs1.of_cons hs2.of_cons hle2 (by
        intro x hx y hy
        refine hmin x (by simp [hx]) y ?_
        rw [hdiff]
        exact hy)
      simp only [List.length_cons, List.take_succ_cons]
      rw [← hrec]

/-- C1: for every built tree, target and `k`, `Search` returns pairs that
are items of the tree with their true distances (first two conjuncts), and
the returned distance sequence is exactly the first `k` of all indexed
distances sorted ascending (third conjunct) — together this is the set
equality with the sorted-prefix selection, up to tie-breaking among equal
distances. -/
theorem claim_C1 {α : Type u} (d : Metric α)
    (hsymm : ∀ a b : α, d a b = d b a)
    (htri : ∀ a b c : α, d a c ≤ d a b + d b c)
    (items : List α) (rng : List ℕ → ℕ) (target : α) (k : ℤ) :
    (Search (New d items rng) target k).1.map (fun x => d x target) =
        (Search (New d items rng) target k).2 ∧
      (((Search (New d items rng) target k).1 : List α) : Multiset α) ≤
        ↑((New d items rng).root.items) ∧
      (Search (New d items rng) target k).2 =
        ((((New d items rng).root.items.map (fun x => d x target)).insertionSort
          (· ≤ ·)).take k.toNat) := by
  by_cases hk : k < 1
  · have h0 : k.toNat = 0 := by omega
    simp [Search, if_pos hk, h0]
  · have hk1 : 1 ≤ k.toNat := by omega
    classical
    have hroot : (New d items rng).root = buildFromPoints d rng items [] := rfl
    rw [hroot]
    have hwf := buildFromPoints_wf d rng items []
    have hinv0 : Inv k.toNat none ([] : List (α × ℚ)) :=
      { sorted := List.sorted_nil
        len_le := Nat.zero_le _
        tau_none := by simp; omega
        tau_top := fun _ => rfl
        bound := fun p hp => absurd hp (List.not_mem_nil p) }
    have htopk0 := search_topk d target hsymm htri k.toNat hk1 _ hwf (none, []) hinv0
    obtain ⟨hinvres, htaures, hlenres, hsubres⟩ :=
      search_state d target k.toNat hk1 (buildFromPoints d rng items []) (none, []) hinv0
    dsimp only at htopk0 hlenres
    rw [Multiset.coe_nil, zero_add] at htopk0
    obtain ⟨hsub, hcard, hmin⟩ := htopk0
    set res := search d target k.toNat (buildFromPoints d rng items []) (none, [])
      with hresdef
    have hshape : ∀ p ∈ res.2, p.2 = d p.1 target := by
      intro p hp
      have hpT : p ∈ treePairs d target (buildFromPoints d rng items []) :=
        Multiset.mem_of_le hsub (Multiset.mem_coe.mpr hp)
      obtain ⟨x, hx, hpx⟩ := mem_treePairs hpT
      rw [hpx]
    have hSearch : Search (New d items rng) target k =
        ((res.2.map Prod.fst).reverse, (res.2.map Prod.snd).reverse) := by
      simp only [Search, New]
      rw [if_neg hk]
    refine ⟨?_, ?_, ?_⟩
    · rw [hSearch]
      dsimp only
      rw [← List.map_reverse, ← List.map_reverse, List.map_map]
      exact List.map_eq_map_iff.mpr
        (fun p hp => (hshape p (List.mem_reverse.mp hp)).symm)
    · rw [hSearch]
      dsimp only
      have h1 : (((res.2.map Prod.fst).reverse : List α) : Multiset α) =
          Multiset.map Prod.fst ((res.2 : List (α × ℚ)) : Multiset (α × ℚ)) := by
        rw [Multiset.coe_reverse, Multiset.map_coe]
      have h2 : Multiset.map Prod.fst
            (treePairs d target (buildFromPoints d rng items []))
          = ↑((buildFromPoints d rng items []).items) := by
        rw [treePairs, Multiset.map_coe, List.map_map]
        rw [show (Prod.fst ∘ fun x : α => (x, d x target)) = id from rfl, List.map_id]
      rw [h1, ← h2]
      exact Multiset.map_le_map hsub
    · rw [hSearch]
      dsimp only
      have hs1 : ((res.2.map Prod.snd).reverse).Sorted (· ≤ ·) := by
        apply List.pairwise_reverse.mpr
        exact List.Pairwise.map Prod.snd (fun p q hpq => hpq) hinvres.sorted
      have hs2 := List.sorted_insertionSort (fun a b : ℚ => a ≤ b)
        ((buildFromPoints d rng items []).items.map (fun x => d x target))
      have hcoe1 : (((res.2.map Prod.snd).reverse : List ℚ) : Multiset ℚ) =
          Multiset.map Prod.snd ((res.2 : List (α × ℚ)) : Multiset (α × ℚ)) := by
        rw [Multiset.coe_reverse, Multiset.map_coe]
      have hsortcoe : ((((buildFromPoints d rng items []).items.map
            (fun x => d x target)).insertionSort (· ≤ ·) : List ℚ) : Multiset ℚ) =
          Multiset.map Prod.snd
            (treePairs d target (buildFromPoints d rng items [])) := by
        rw [Multiset.coe_eq_coe.mpr (List.perm_insertionSort _ _)]
        rw [treePairs, Multiset.map_coe, List.map_map]
        rfl
      have hle12 : (((res.2.map Prod.snd).reverse : List ℚ) : Multiset ℚ) ≤
          ↑(((buildFromPoints d rng items []).items.map
            (fun x => d x target)).insertionSort (· ≤ ·)) := by
        rw [hcoe1, hsortcoe]
        exact Multiset.map_le_map hsub
      have hminQ : ∀ a ∈ (res.2.map Prod.snd).reverse,
          ∀ b ∈ ((↑(((buildFromPoints d rng items []).items.map
              (fun x => d x target)).insertionSort (· ≤ ·)) -
            ↑((res.2.map Prod.snd).reverse)) : Multiset ℚ), a ≤ b := by
        intro a ha b hb
        rw [hcoe1, hsortcoe] at hb
        have hmapsub : Multiset.map Prod.snd
              (treePairs d target (buildFromPoints d rng items [])) -
              Multiset.map Prod.snd ((res.2 : List (α × ℚ)) : Multiset (α × ℚ))
            = Multiset.map Prod.snd
              (treePairs d target (buildFromPoints d rng items []) -
                ((res.2 : List (α × ℚ)) : Multiset (α × ℚ))) := by
          conv_lhs => rw [(tsub_add_cancel_of_le hsub).symm]
          rw [Multiset.map_add, add_tsub_cancel_right]
        rw [hmapsub] at hb
        obtain ⟨q, hq, hqb⟩ := Multiset.mem_map.mp hb
        have ha2 : a ∈ Multiset.map Prod.snd (↑res.2 : Multiset (α × ℚ)) := by
          rw [← hcoe1]
          exact Multiset.mem_coe.mpr ha
        obtain ⟨p, hp, hpa⟩ := Multiset.mem_map.mp ha2
        rw [← hqb, ← hpa]
        exact hmin p hp q hq
      have hfin := sorted_sub_eq_take
        (((buildFromPoints d rng items []).items.map
          (fun x => d x target)).insertionSort (· ≤ ·))
        ((res.2.map Prod.snd).reverse) hs1 hs2 hle12 hminQ
      have hlen1 : ((res.2.map Prod.snd).reverse).length =
          min k.toNat items.length := by
        rw [List.length_reverse, List.length_map, hlenres,
          buildFromPoints_length]
        simp
      have hl2len : (((buildFromPoints d rng items []).items.map
          (fun x => d x target)).insertionSort (· ≤ ·)).length = items.length := by
        rw [List.length_insertionSort, List.length_map, Tree.length_items,
          buildFromPoints_length]
      rw [hfin, hlen1, ← hl2len, ← List.take_take, List.take_length]

theorem Inv_initial {α : Type u} (k : ℕ) (hk : 1 ≤ k) :
    Inv k none (([] : List (α × ℚ))) :=
  { sorted := List.sorted_nil
    len_le := Nat.zero_le _
    tau_none := by simp; omega
    tau_top := fun _ => rfl
    bound := fun p hp => absurd hp (List.not_mem_nil p) }

/-- C2: for every built tree with `n` items, every target and every
non-negative `k`, `Search` returns two sequences of equal length
`min(k, n)`, with the distances sorted in non-decreasing order. -/
theorem claim_C2 {α : Type u} (d : Metric α) (items : List α) (rng : List ℕ → ℕ)
    (target : α) (k : ℤ) (hk : 0 ≤ k) :
    (Search (New d items rng) target k).1.length =
        (Search (New d items rng) target k).2.length ∧
      (Search (New d items rng) target k).2.length = min k.toNat items.length ∧
      List.Sorted (· ≤ ·) (Search (New d items rng) target k).2 := by
  by_cases hk1 : k < 1
  · have h0 : k.toNat = 0 := by omega
    simp [Search, if_pos hk1, h0]
  · have hkn : 1 ≤ k.toNat := by omega
    obtain ⟨hinvres, htaures, hlenres, hsubres⟩ :=
      search_state d target k.toNat hkn (buildFromPoints d rng items []) (none, [])
        (Inv_initial k.toNat hkn)
    have hSearch : Search (New d items rng) target k =
        (((search d target k.toNat (buildFromPoints d rng items [])
            (none, [])).2.map Prod.fst).reverse,
          ((search d target k.toNat (buildFromPoints d rng items [])
            (none, [])).2.map Prod.snd).reverse) := by
      simp only [Search, New]
      rw [if_neg hk1]
    rw [hSearch]
    dsimp only at hlenres ⊢
    refine ⟨by simp, ?_, ?_⟩
    · simp only [List.length_reverse, List.length_map]
      rw [hlenres, buildFromPoints_length]
      simp
    · apply List.pairwise_reverse.mpr
      exact List.Pairwise.map Prod.snd (fun p q hpq => hpq) hinvres.sorted

theorem claim_C2_witness :
    (Search (New absDist [3, 1, 4] rngZero) 2 2).2.length =
      min (2 : ℤ).toNat ([3, 1, 4] : List ℚ).length :=
  (claim_C2 absDist [3, 1, 4] rngZero 2 2 (by decide)).2.1

/-- C3: every tree produced by the builder satisfies the partition
invariant `Wf`: at every node, the items reachable in the left subtree are
within the stored threshold of the node's item, and the items reachable in
the right subtree are at least the threshold away (second conjunct unfolds
what `Wf` states at a node). -/
theorem claim_C3 {α : Type u} (d : Metric α) (rng : List ℕ → ℕ) (items : List α)
    (path : List ℕ) :
    Wf d (buildFromPoints d rng items path) ∧
      (∀ (item : α) (thr : ℚ) (l r : Tree α), Wf d (Tree.node item thr l r) →
        (∀ x ∈ l.items, d x item ≤ thr) ∧ (∀ x ∈ r.items, thr ≤ d x item) ∧
          Wf d l ∧ Wf d r) := by
  refine ⟨buildFromPoints_wf d rng items path, ?_⟩
  intro item thr l r hw
  cases hw with
  | node h1 h2 h3 h4 => exact ⟨h1, h2, h3, h4⟩

theorem claim_C3_witness :
    Wf absDist (buildFromPoints absDist rngZero [3, 1, 4] []) :=
  (claim_C3 absDist rngZero [3, 1, 4] []).1

/-- C6: when the build step partitions a non-empty remaining range, the
node's stored threshold (`pivotDist`) equals the distance from the node's
item to the element that ends up in the boundary slot `storeIndex`, which
is the first element of the right subtree's range. -/
theorem claim_C6 {α : Type u} (d : Metric α) (rng : List ℕ → ℕ)
    (x : α) (xs : List α) (path : List ℕ)
    (hrest : swapRemove (x :: xs) (rng path % (x :: xs).length) ≠ []) :
    let item := (x :: xs).getD (rng path % (x :: xs).length) x
    let rest := swapRemove (x :: xs) (rng path % (x :: xs).length)
    let p := partitionStep d item rest
    buildFromPoints d rng (x :: xs) path =
        Tree.node item p.2.2
          (buildFromPoints d rng (p.1.take p.2.1) (0 :: path))
          (buildFromPoints d rng (p.1.drop p.2.1) (1 :: path)) ∧
      p.2.1 < p.1.length ∧
      d (p.1.getD p.2.1 item) item = p.2.2 := by
  intro item rest p
  have hne : ¬ rest.isEmpty = true := fun hh => hrest (List.isEmpty_iff.mp hh)
  obtain ⟨hcoe, hsi, hlow, hhigh, hb⟩ := partitionStep_spec d item rest hrest
  have hlen : (partitionStep d item rest).1.length = rest.length :=
    partitionStep_length d item rest
  refine ⟨?_, ?_, hb⟩
  · simp only [buildFromPoints]
    rw [if_neg hne]
  · show (partitionStep d item rest).2.1 < (partitionStep d item rest).1.length
    rw [hlen]
    exact hsi

theorem claim_C6_witness :
    (let item := ([3, 1, 4] : List ℚ).getD (rngZero [] % ([3, 1, 4] : List ℚ).length) 3
     let rest := swapRemove ([3, 1, 4] : List ℚ) (rngZero [] % ([3, 1, 4] : List ℚ).length)
     let p := partitionStep absDist item rest
     buildFromPoints absDist rngZero [3, 1, 4] [] =
        Tree.node item p.2.2
          (buildFromPoints absDist rngZero (p.1.take p.2.1) (0 :: []))
          (buildFromPoints absDist rngZero (p.1.drop p.2.1) (1 :: [])) ∧
      p.2.1 < p.1.length ∧
      absDist (p.1.getD p.2.1 item) item = p.2.2) :=
  claim_C6 absDist rngZero 3 [1, 4] [] (by decide)

/-- C7: `Search` returns two empty sequences whenever `k < 1` (for any
tree), and for a tree built from an empty collection it returns two empty
sequences for every `k`; neither case raises an error (`Search` is a total
function). -/
theorem claim_C7 {α : Type u} (vp : VPTree α) (target : α) (k : ℤ)
    (d : Metric α) (rng : List ℕ → ℕ) :
    (k < 1 → Search vp target k = ([], [])) ∧
      (∀ kz : ℤ, Search (New d ([] : List α) rng) target kz = ([], [])) := by
  constructor
  · intro hk
    simp [Search, if_pos hk]
  · intro kz
    by_cases hk : kz < 1
    · simp [Search, if_pos hk]
    · simp only [Search, New]
      rw [if_neg hk]
      simp [buildFromPoints, search]

theorem claim_C7_witness :
    Search (New absDist [3] rngZero) 5 0 = ([], []) ∧
      Search (New absDist ([] : List ℚ) rngZero) 5 7 = ([], []) :=
  ⟨(claim_C7 (New absDist [3] rngZero) 5 0 absDist rngZero).1 (by decide),
    (claim_C7 (New absDist [3] rngZero) 5 0 absDist rngZero).2 7⟩

/-- C8: a search leaves the tree completely unchanged.  `searchMut` threads
the whole `VPTree` (root, thresholds, children and the metric reference)
through the mutable state exactly as the Go method could mutate its pointer
receiver; it returns the tree component untouched, and its search-state
component agrees with the tree-read-only `search`, whose radius and queue
are locals of one invocation rather than fields of the tree. -/
theorem claim_C8 {α : Type u} (target : α) (k : ℕ) :
    ∀ (t : Tree α) (vp : VPTree α) (s : SearchState α),
      searchMut target k t (vp, s) = (vp, search vp.distanceMetric target k t s) := by
  intro t
  induction t with
  | nil => intro vp s; rfl
  | node it thr l r ihl ihr =>
    intro vp s
    simp only [searchMut, search]
    by_cases hleaf : (Tree.isNil l && Tree.isNil r) = true
    · rw [if_pos hleaf, if_pos hleaf]
    · rw [if_neg hleaf, if_neg hleaf]
      by_cases hord : vp.distanceMetric it target < thr
      · rw [if_pos hord, if_pos hord]
        by_cases hc1 : subTauLE (vp.distanceMetric it target)
            (stepInsert k it (vp.distanceMetric it target) s).1 thr = true
        · rw [if_pos hc1, if_pos hc1, ihl]
          dsimp only
          by_cases hc2 : addTauGE (vp.distanceMetric it target)
              (search vp.distanceMetric target k l
                (stepInsert k it (vp.distanceMetric it target) s)).1 thr = true
          · rw [if_pos hc2, if_pos hc2, ihr]
          · rw [if_neg hc2, if_neg hc2]
        · rw [if_neg hc1, if_neg hc1]
          dsimp only
          by_cases hc2 : addTauGE (vp.distanceMetric it target)
              (stepInsert k it (vp.distanceMetric it target) s).1 thr = true
          · rw [if_pos hc2, if_pos hc2, ihr]
          · rw [if_neg hc2, if_neg hc2]
      · rw [if_neg hord, if_neg hord]
        by_cases hc1 : addTauGE (vp.distanceMetric it target)
            (stepInsert k it (vp.distanceMetric it target) s).1 thr = true
        · rw [if_pos hc1, if_pos hc1, ihr]
          dsimp only
          by_cases hc2 : subTauLE (vp.distanceMetric it target)
              (search vp.distanceMetric target k r
                (stepInsert k it (vp.distanceMetric it target) s)).1 thr = true
          · rw [if_pos hc2, if_pos hc2, ihl]
          · rw [if_neg hc2, if_neg hc2]
        · rw [if_neg hc1, if_neg hc1]
          dsimp only
          by_cases hc2 : subTauLE (vp.distanceMetric it target)
              (stepInsert k it (vp.distanceMetric it target) s).1 thr = true
          · rw [if_pos hc2, if_pos hc2, ihl]
          · rw [if_neg hc2, if_neg hc2]

/-- C9: the tree built by `New` holds exactly the items of the input
collection — as multisets the tree's items equal the input, so each input
item appears at exactly one node and no item is dropped, duplicated or
invented. -/
theorem claim_C9 {α : Type u} (d : Metric α) (rng : List ℕ → ℕ) (items : List α) :
    ((((New d items rng).root.items : List α)) : Multiset α) = (items : Multiset α) :=
  buildFromPoints_coe d rng items []

/-- C10: with capacity `k ≥ 1` the queue never exceeds `k` elements through
the insert step or a whole traversal; the insert step does nothing unless
the distance is strictly below `tau`, evicts the current maximum exactly
when the queue already holds `k` elements, and the evicted head is a
maximum of the (sorted) queue. -/
theorem claim_C10 {α : Type u} (d : Metric α) (target : α) (k : ℕ) (hk : 1 ≤ k) :
    (∀ (t : Tree α) (s : SearchState α), Inv k s.1 s.2 →
        (search d target k t s).2.length ≤ k) ∧
      (∀ (it : α) (dist : ℚ) (s : SearchState α), Inv k s.1 s.2 →
        (stepInsert k it dist s).2.length ≤ k) ∧
      (∀ (it : α) (dist : ℚ) (s : SearchState α), ltTau dist s.1 = false →
        stepInsert k it dist s = s) ∧
      (∀ (it : α) (dist : ℚ) (s : SearchState α), ltTau dist s.1 = true →
        s.2.length = k →
        stepInsert k it dist s =
          (if (heapPush (heapPop s.2) (it, dist)).length = k
              then topDist (heapPush (heapPop s.2) (it, dist)) else s.1,
            heapPush (heapPop s.2) (it, dist))) ∧
      (∀ (it : α) (dist : ℚ) (s : SearchState α), ltTau dist s.1 = true →
        s.2.length ≠ k →
        stepInsert k it dist s =
          (if (heapPush s.2 (it, dist)).length = k
              then topDist (heapPush s.2 (it, dist)) else s.1,
            heapPush s.2 (it, dist))) ∧
      (∀ (h : List (α × ℚ)), h.Sorted distGE → ∀ p ∈ h, leTau p.2 (topDist h)) := by
  refine ⟨?_, ?_, ?_, ?_, ?_, fun h hs => sorted_le_topDist hs⟩
  · intro t s hinv
    rw [(search_state d target k hk t s hinv).2.2.1]
    exact min_le_left _ _
  · intro it dist s hinv
    classical
    obtain ⟨tau, h⟩ := s
    rw [(stepInsert_spec k hk it dist tau h hinv).2.2.1]
    exact min_le_left _ _
  · intro it dist s hlt
    simp only [stepInsert]
    rw [if_neg (by rw [hlt]; exact Bool.false_ne_true)]
  · intro it dist s hlt hfull
    simp only [stepInsert]
    rw [if_pos hlt, if_pos hfull]
  · intro it dist s hlt hfull
    simp only [stepInsert]
    rw [if_pos hlt, if_neg hfull]

theorem claim_C10_witness :
    stepInsert 1 (5 : ℚ) 9 (some 1, [((2 : ℚ), (1 : ℚ))]) =
      (some 1, [((2 : ℚ), (1 : ℚ))]) :=
  (claim_C10 absDist 0 1 le_rfl).2.2.1 5 9 (some 1, [((2 : ℚ), (1 : ℚ))]) (by decide)

theorem claim_C1_witness :
    (Search (New absDist [0, 5, 3, 9] rngZero) 4 2).2 =
      ((((New absDist [0, 5, 3, 9] rngZero).root.items.map
        (fun x => absDist x 4)).insertionSort (· ≤ ·)).take (2 : ℤ).toNat) :=
  (claim_C1 absDist (fun a b => abs_sub_comm a b) (fun a b c => abs_sub_le a b c)
    [0, 5, 3, 9] rngZero 4 2).2.2

/-- C4: at every visited node with at least one child, the left subtree is
traversed iff `dist - tau ≤ threshold` and the right subtree iff
`dist + tau ≥ threshold`, with the value of `tau` taken at the time of each
decision and both comparisons inclusive, in both traversal orders: the
code's one-step unfolding equals the spec-side description, and the code's
guards are exactly the inclusive spec inequalities. -/
theorem claim_C4 {α : Type u} (d : Metric α) (target : α) (k : ℕ)
    (item : α) (threshold : ℚ) (left right : Tree α) (s : SearchState α)
    (hchild : ¬ (left.isNil = true ∧ right.isNil = true)) :
    (search d target k (Tree.node item threshold left right) s =
      (let dist := d item target
       let s1 := stepInsert k item dist s
       if dist < threshold then
         let s2 := if visitsLeftSpec dist s1.1 threshold
           then search d target k left s1 else s1
         if visitsRightSpec dist s2.1 threshold
           then search d target k right s2 else s2
       else
         let s2 := if visitsRightSpec dist s1.1 threshold
           then search d target k right s1 else s1
         if visitsLeftSpec dist s2.1 threshold
           then search d target k left s2 else s2)) ∧
      (∀ (dist t thr : ℚ),
        (subTauLE dist (some t) thr = true ↔ dist - t ≤ thr) ∧
        (addTauGE dist (some t) thr = true ↔ thr ≤ dist + t) ∧
        subTauLE dist none thr = true ∧ addTauGE dist none thr = true ∧
        (visitsLeftSpec dist (some t) thr ↔ dist - t ≤ thr) ∧
        (visitsRightSpec dist (some t) thr ↔ thr ≤ dist + t)) := by
  have hA : ∀ (tau : Option ℚ),
      (subTauLE (d item target) tau threshold = true) ↔
        visitsLeftSpec (d item target) tau threshold := by
    intro tau
    cases tau <;> simp [subTauLE, visitsLeftSpec]
  have hB : ∀ (tau : Option ℚ),
      (addTauGE (d item target) tau threshold = true) ↔
        visitsRightSpec (d item target) tau threshold := by
    intro tau
    cases tau <;> simp [addTauGE, visitsRightSpec, ge_iff_le]
  have hnil : ¬ (Tree.isNil left && Tree.isNil right) = true := by
    simpa [Bool.and_eq_true_iff] using hchild
  constructor
  · simp only [search]
    rw [if_neg hnil]
    by_cases hord : d item target < threshold
    · rw [if_pos hord, if_pos hord]
      by_cases hc1 : subTauLE (d item target)
          (stepInsert k item (d item target) s).1 threshold = true
      · rw [if_pos hc1, if_pos ((hA _).mp hc1)]
        by_cases hc2 : addTauGE (d item target)
            (search d target k left (stepInsert k item (d item target) s)).1
            threshold = true
        · rw [if_pos hc2, if_pos ((hB _).mp hc2)]
        · rw [if_neg hc2, if_neg (fun hh => hc2 ((hB _).mpr hh))]
      · rw [if_neg hc1, if_neg (fun hh => hc1 ((hA _).mpr hh))]
        by_cases hc2 : addTauGE (d item target)
            (stepInsert k item (d item target) s).1 threshold = true
        · rw [if_pos hc2, if_pos ((hB _).mp hc2)]
        · rw [if_neg hc2, if_neg (fun hh => hc2 ((hB _).mpr hh))]
    · rw [if_neg hord, if_neg hord]
      by_cases hc1 : addTauGE (d item target)
          (stepInsert k item (d item target) s).1 threshold = true
      · rw [if_pos hc1, if_pos ((hB _).mp hc1)]
        by_cases hc2 : subTauLE (d item target)
            (search d target k right (stepInsert k item (d item target) s)).1
            threshold = true
        · rw [if_pos hc2, if_pos ((hA _).mp hc2)]
        · rw [if_neg hc2, if_neg (fun hh => hc2 ((hA _).mpr hh))]
      · rw [if_neg hc1, if_neg (fun hh => hc1 ((hB _).mpr hh))]
        by_cases hc2 : subTauLE (d item target)
            (stepInsert k item (d item target) s).1 threshold = true
        · rw [if_pos hc2, if_pos ((hA _).mp hc2)]
        · rw [if_neg hc2, if_neg (fun hh => hc2 ((hA _).mpr hh))]
  · intro dist t thr
    refine ⟨by simp [subTauLE], by simp [addTauGE, ge_iff_le], rfl, rfl,
      Iff.rfl, Iff.rfl⟩

theorem claim_C4_witness :
    (subTauLE 5 (some 2) 4 = true ↔ (5 : ℚ) - 2 ≤ 4) ∧
      (addTauGE 5 (some 2) 4 = true ↔ (4 : ℚ) ≤ 5 + 2) ∧
      subTauLE 5 none 4 = true ∧ addTauGE 5 none 4 = true ∧
      (visitsLeftSpec 5 (some 2) 4 ↔ (5 : ℚ) - 2 ≤ 4) ∧
      (visitsRightSpec 5 (some 2) 4 ↔ (4 : ℚ) ≤ 5 + 2) :=
  (claim_C4 absDist 2 1 3 1 (Tree.node 5 0 Tree.nil Tree.nil) Tree.nil (none, [])
    (by decide)).2 5 2 4

/-- C5: the radius `tau` starts at the maximum representable distance
(`Search` seeds the recursion with the top value `none` modelling
`math.MaxFloat64`) and never increases: the insert step reassigns it only
when the queue is at capacity `k`, to a value no greater than its previous
value, and a whole traversal never increases it. -/
theorem claim_C5 {α : Type u} (d : Metric α) (target : α) (k : ℕ) (hk : 1 ≤ k) :
    (∀ (it : α) (dist : ℚ) (tau : Option ℚ) (h : List (α × ℚ)), Inv k tau h →
        tauLE (stepInsert k it dist (tau, h)).1 tau ∧
          ((stepInsert k it dist (tau, h)).1 ≠ tau →
            (stepInsert k it dist (tau, h)).2.length = k)) ∧
      (∀ (t : Tree α) (s : SearchState α), Inv k s.1 s.2 →
        tauLE (search d target k t s).1 s.1) ∧
      (∀ (vp : VPTree α) (kz : ℤ), ¬ kz < 1 →
        Search vp target kz =
          (((search vp.distanceMetric target kz.toNat vp.root (none, [])).2.map
              Prod.fst).reverse,
            ((search vp.distanceMetric target kz.toNat vp.root (none, [])).2.map
              Prod.snd).reverse)) := by
  refine ⟨?_, fun t s hinv => search_tauLE d target k hk t s hinv, ?_⟩
  · intro it dist tau h hinv
    classical
    refine ⟨(stepInsert_spec k hk it dist tau h hinv).2.1, ?_⟩
    intro hne
    by_contra hlen
    have hinv2 := (stepInsert_spec k hk it dist tau h hinv).1
    have hlen2 := (stepInsert_spec k hk it dist tau h hinv).2.2.1
    have hlt2 : (stepInsert k it dist (tau, h)).2.length < k :=
      lt_of_le_of_ne hinv2.len_le hlen
    have htau2 : (stepInsert k it dist (tau, h)).1 = none := hinv2.tau_none.mpr hlt2
    have hlenlt : h.length < k := by omega
    have htau1 : tau = none := hinv.tau_none.mpr hlenlt
    exact hne (htau2.trans htau1.symm)
  · intro vp kz hkz
    simp only [Search]
    rw [if_neg hkz]

theorem claim_C5_witness :
    tauLE (search absDist 0 1 Tree.nil (none, ([] : List (ℚ × ℚ)))).1 none :=
  (claim_C5 absDist 0 1 le_rfl).2.1 Tree.nil (none, []) (Inv_initial 1 le_rfl)

end VPT
